import Mathlib

/-!
Verification of the pygments JVM lexer module (pygments/lexers/jvm.py) against
its specification.  The generic lexer engine (the stack-based regex interpreter
of pygments/lexer.py) is not part of the analysed sources, so it is modelled
from the specification, section 4.3: a fuelled interpreter over rule tables.
Rule tables (JavaLexer, AspectJLexer, GroovyLexer, GosuLexer, GosuTemplateLexer,
ScalaLexer) are translated from the source file.  Pattern matchers are
functional translations of the source regular expressions, anchored at the
cursor, using the ASCII reading of the Python character classes.
-/

namespace PygJvm

/-- Token kinds used by the rule tables of the analysed file (a fragment of the
hierarchical pygments token taxonomy), plus the designated fallback kind. -/
inductive Kind where
  | text
  | commentSingle
  | commentMultiline
  | commentPreproc
  | commentHashbang
  | keyword
  | keywordDeclaration
  | keywordType
  | keywordNamespace
  | keywordConstant
  | nameK
  | nameFunction
  | nameDecorator
  | nameLabel
  | nameAttribute
  | nameClass
  | nameNamespace
  | nameBuiltinPseudo
  | stringK
  | stringChar
  | stringDouble
  | stringSingle
  | stringEscape
  | stringInterpol
  | stringSymbol
  | numberFloat
  | numberHex
  | numberBin
  | numberOct
  | numberInteger
  | numberIntegerLong
  | operator
  | punctuation
  | errorK
deriving DecidableEq, Repr

/-- An emitted token: start offset, kind and literal text. -/
structure Token where
  start : Nat
  kind : Kind
  value : List Char
deriving DecidableEq, Repr

/-- One emission piece of a match: either a span with a fixed kind (the whole
match, or one capture group of a bygroups action), or a delegate span that is
re-lexed with the same table from its root state (the using-this action). -/
inductive PieceKind where
  | k (kind : Kind)
  | usingThis
deriving DecidableEq, Repr

/-- A piece is an emission kind together with the length of its span.  The
pieces of a match tile the match from the cursor onward; the match length is
the sum of the piece lengths. -/
abbrev Piece := PieceKind × Nat

def piecesLen (ps : List Piece) : Nat := (ps.map (·.2)).sum

/-- Stack action of a rule, specification section 4.3 step 5. -/
inductive StackAction where
  | stay
  | push (st : String)
  | pop (n : Nat)
  | goto (st : String)
  | pushCombined (sts : List String)
deriving DecidableEq, Repr

/-- A compiled rule: an anchored matcher (given the previous character, for
line anchors and word boundaries, and the suffix at the cursor) and a stack
action.  `none` means the rule does not match at the cursor. -/
structure Rule where
  matcher : Option Char → List Char → Option (List Piece)
  action : StackAction

/-- A rule that never matches (used as a lookup default only). -/
def noRule : Rule := ⟨fun _ _ => none, .stay⟩

/-- A resolved rule table: state name to flattened rule list. -/
abbrev Table := String → List Rule

/-- Modelled from the spec: pop(n) removes up to n entries but never removes
the last remaining entry (section 4.3 step 5). -/
def popUpTo (n : Nat) (s : List (List String)) : List (List String) :=
  s.drop (min n (s.length - 1))

/-- Modelled from the spec: stack actions on the state stack.  A stack entry is
a list of state names whose rule lists are concatenated for lookup, so that a
combined push is one entry (section 4.3 step 5). -/
def applyAction : StackAction → List (List String) → List (List String)
  | .stay, s => s
  | .push st, s => [st] :: s
  | .pop n, s => popUpTo n s
  | .goto st, [] => [[st]]
  | .goto st, _ :: r => [st] :: r
  | .pushCombined sts, s => sts :: s

/-- The character just before the cursor, if any (for line anchors). -/
def prevChar (text : List Char) (pos : Nat) : Option Char :=
  if pos = 0 then none else text.get? (pos - 1)

/-- First rule (in declaration order) whose matcher fires on the suffix;
returns its index and its pieces.  Modelled from the spec: rules are tried
strictly in declaration order, first match wins (section 4.3 step 2). -/
def selectIdx (rules : List Rule) (pv : Option Char) (s : List Char) :
    Option (Nat × List Piece) :=
  match rules with
  | [] => none
  | r :: rest =>
    match r.matcher pv s with
    | some ps => some (0, ps)
    | none => (selectIdx rest pv s).map (fun ip => (ip.1 + 1, ip.2))

/-- Emit the tokens of a list of pieces starting at `pos`, slicing the text;
zero-length pieces are suppressed, delegate pieces are re-lexed by `runner`
and their offsets re-based (spec sections 4.3 steps 3 and 4). -/
def emitPieces (runner : List Char → Option (List Token)) (text : List Char) :
    Nat → List Piece → Option (List Token)
  | _, [] => some []
  | pos, (pk, n) :: rest =>
    match emitPieces runner text (pos + n) rest with
    | none => none
    | some ts =>
      match pk with
      | .k kind =>
        some (if n = 0 then ts else ⟨pos, kind, (text.drop pos).take n⟩ :: ts)
      | .usingThis =>
        match runner ((text.drop pos).take n) with
        | none => none
        | some sub =>
          some (sub.map (fun t => { t with start := t.start + pos }) ++ ts)

/-- Modelled from the spec: the lexer state machine, section 4.3.  Fuelled
interpreter; `none` means the fuel was exhausted (the loop did not terminate
within `fuel` iterations).  Per step: take the first matching rule of the
top-of-stack state at the cursor; if the match has zero length and no stack
action, force one error character (step 6); otherwise emit the pieces and
apply the stack action; if no rule matches, emit one error character and
advance by one (step 7).  Delegate pieces re-run the same table from root. -/
def runFuel (tbl : Table) : Nat → List (List String) → List Char → Nat →
    Option (List Token)
  | 0, _, _, _ => none
  | fuel + 1, stack, text, pos =>
    if pos < text.length then
      let rules := (stack.headD []).flatMap tbl
      match selectIdx rules (prevChar text pos) (text.drop pos) with
      | some ips =>
        let act := (rules.getD ips.1 noRule).action
        if piecesLen ips.2 = 0 ∧ act = .stay then
          (runFuel tbl fuel stack text (pos + 1)).map
            (fun ts => ⟨pos, .errorK, (text.drop pos).take 1⟩ :: ts)
        else
          match emitPieces (fun sub => runFuel tbl fuel [["root"]] sub 0)
              text pos ips.2 with
          | none => none
          | some emitted =>
            (runFuel tbl fuel (applyAction act stack) text
                (pos + piecesLen ips.2)).map (fun ts => emitted ++ ts)
      | none =>
        (runFuel tbl fuel stack text (pos + 1)).map
          (fun ts => ⟨pos, .errorK, (text.drop pos).take 1⟩ :: ts)
    else some []

/-- A run produces a token list: some fuel suffices. -/
def Produces (tbl : Table) (stack : List (List String)) (text : List Char)
    (toks : List Token) : Prop :=
  ∃ fuel, runFuel tbl fuel stack text 0 = some toks

/-- Concatenation of the literal text of a token list. -/
def concatValues (ts : List Token) : List Char := (ts.map Token.value).flatten

/-- The tokens tile the text contiguously from `p`: each starts where the
previous one ended. -/
def Tiling : Nat → List Token → Prop
  | _, [] => True
  | p, t :: ts => t.start = p ∧ Tiling (p + t.value.length) ts

/-- Boolean check of exact contiguity of consecutive tokens. -/
def contigB : List Token → Bool
  | a :: b :: ts => (b.start == a.start + a.value.length) && contigB (b :: ts)
  | _ => true

/-- Boolean check of the claimed offset monotonicity:
next start at least previous start plus previous length. -/
def monotoneB : List Token → Bool
  | a :: b :: ts => (a.start + a.value.length ≤ b.start : Bool) && monotoneB (b :: ts)
  | _ => true

/-- Boolean check that start offsets are non-decreasing. -/
def nondecB : List Token → Bool
  | a :: b :: ts => (a.start ≤ b.start : Bool) && nondecB (b :: ts)
  | _ => true

/-! ### Matcher toolkit

Functional translations of the regular-expression constructs used by the
tables of the analysed file.  Matching is anchored: a matcher reads a suffix
of the input and returns the number of characters the pattern consumes there,
or `none`.  Character classes use the ASCII reading of the Python classes. -/

/-- Python whitespace class (backslash-s), ASCII part. -/
def pySpace (c : Char) : Bool :=
  c == ' ' || c == '\t' || c == '\n' || c == '\r' || c == '\x0b' || c == '\x0c'

/-- Python word-character class (backslash-w), ASCII part: letters, digits,
underscore. -/
def wordChar (c : Char) : Bool := c.isAlphanum || c == '_'

/-- The class of the pattern fragment matching a word char that is not a
digit: letters and underscore. -/
def idStart (c : Char) : Bool := c.isAlpha || c == '_'

/-- The fragment matching a word char that is not a digit, or a dollar. -/
def idStartD (c : Char) : Bool := idStart c || c == '$'

/-- The class of word chars or dollar. -/
def wordDollar (c : Char) : Bool := wordChar c || c == '$'

def hexDigit (c : Char) : Bool :=
  c.isDigit || (('a' ≤ c) && (c ≤ 'f')) || (('A' ≤ c) && (c ≤ 'F'))

/-- [0-9_] -/
def digitU (c : Char) : Bool := c.isDigit || c == '_'

/-- [0-9a-fA-F_] -/
def hexU (c : Char) : Bool := hexDigit c || c == '_'

/-- Does the word occur as a prefix of the suffix? (anchored literal). -/
def starts : List Char → List Char → Bool
  | [], _ => true
  | _ :: _, [] => false
  | w :: ws, c :: cs => w == c && starts ws cs

/-- Length of the maximal prefix of characters in the class (greedy star). -/
def countWhile (p : Char → Bool) : List Char → Nat
  | [] => 0
  | c :: cs => if p c then countWhile p cs + 1 else 0

/-- Greedy plus: at least one character of the class. -/
def plusC (p : Char → Bool) (s : List Char) : Option Nat :=
  let n := countWhile p s
  if n = 0 then none else some n

/-- Anchored literal matcher. -/
def litM (w : List Char) (s : List Char) : Option Nat :=
  if starts w s then some w.length else none

/-- Index of the first position at which the word occurs (for lazy any-star
up to a literal, with the dot-matches-all flag of the analysed file). -/
def findSub (w : List Char) : List Char → Option Nat
  | [] => if w.isEmpty then some 0 else none
  | c :: cs => if starts w (c :: cs) then some 0 else (findSub w cs).map (· + 1)

/-- A word boundary holds after a word character iff the next character is
absent or not a word character. -/
def boundaryAfter (s : List Char) : Bool :=
  match s with
  | [] => true
  | c :: _ => !(wordChar c)

/-- Word alternation followed by a word boundary, alternatives tried left to
right (backtracking into the alternation when the boundary fails, as the
Python engine does). -/
def wordsB (ws : List (List Char)) (s : List Char) : Option Nat :=
  match ws with
  | [] => none
  | w :: rest =>
    if starts w s && boundaryAfter (s.drop w.length) then some w.length
    else wordsB rest s

/-- Single character from an explicit class. -/
def oneOf (chars : List Char) : List Char → Option Nat
  | c :: _ => if chars.contains c then some 1 else none
  | [] => none

/-- True at a line start: at offset zero or just after a newline (the
multiline flag of the analysed file). -/
def atLineStart (pv : Option Char) : Bool :=
  match pv with
  | none => true
  | some c => c == '\n'

/-- A rule with a single token kind covering the whole match, from a matcher
that ignores the previous character. -/
def simpleRule (k : Kind) (m : List Char → Option Nat) (a : StackAction) : Rule :=
  ⟨fun _ s => (m s).map (fun n => [(.k k, n)]), a⟩

/-- A rule with a single token kind from a matcher that uses the previous
character (line anchors). -/
def simpleRuleP (k : Kind) (m : Option Char → List Char → Option Nat)
    (a : StackAction) : Rule :=
  ⟨fun pv s => (m pv s).map (fun n => [(.k k, n)]), a⟩

/-- A bygroups rule from a matcher producing the group pieces directly. -/
def groupRule (m : List Char → Option (List Piece)) (a : StackAction) : Rule :=
  ⟨fun _ s => m s, a⟩

/-- A bygroups rule whose matcher uses the previous character. -/
def groupRuleP (m : Option Char → List Char → Option (List Piece))
    (a : StackAction) : Rule :=
  ⟨fun pv s => m pv s, a⟩

/-- Keyword-then-whitespace bygroups helper for patterns of the shape
(word)(one or more whitespace) with two kinds. -/
def kwThenSpace (w : List Char) (k1 k2 : Kind) (s : List Char) :
    Option (List Piece) :=
  if starts w s then
    let b := countWhile pySpace (s.drop w.length)
    if b = 0 then none else some [(.k k1, w.length), (.k k2, b)]
  else none

/-! ### JavaLexer (src/pygments/lexers/jvm.py, tokens of JavaLexer)

Each matcher is the functional translation of the regular expression of the
corresponding rule, in declaration order. -/

/-- Rule 1 of root: one or more non-newline whitespace characters, Text. -/
def javaWsM (s : List Char) : Option Nat :=
  plusC (fun c => pySpace c && c != '\n') s

/-- Rule 2: double-slash comment, lazily up to and including the newline. -/
def javaLineCommentM (s : List Char) : Option Nat :=
  if starts ("//".toList) s then
    (findSub ['\n'] (s.drop 2)).map (fun i => 2 + i + 1)
  else none

/-- Rule 3: block comment, lazily up to and including the closing delimiter. -/
def javaBlockCommentM (s : List Char) : Option Nat :=
  if starts ("/*".toList) s then
    (findSub ("*/".toList) (s.drop 2)).map (fun i => 2 + i + 2)
  else none

def javaKeywords : List (List Char) :=
  ["assert", "break", "case", "catch", "continue", "default", "do", "else",
   "finally", "for", "if", "goto", "instanceof", "new", "return", "switch",
   "this", "throw", "try", "while"].map String.toList

def javaDeclKeywords : List (List Char) :=
  ["abstract", "const", "enum", "extends", "final", "implements", "native",
   "private", "protected", "public", "static", "strictfp", "super",
   "synchronized", "throws", "transient", "volatile"].map String.toList

def javaTypeKeywords : List (List Char) :=
  ["boolean", "byte", "char", "double", "float", "int", "long", "short",
   "void"].map String.toList

def javaConstants : List (List Char) :=
  ["true", "false", "null"].map String.toList

/-- One repetition of the return-arguments group of the method-name rule: an
identifier start, a greedy run of word chars, dots, square brackets, dollar or
angle brackets, then mandatory whitespace. -/
def javaMethodRep (s : List Char) : Option Nat :=
  match s with
  | [] => none
  | c :: cs =>
    if idStartD c then
      let a := countWhile
        (fun x => wordChar x || x == '.' || x == '[' || x == ']' ||
          x == '$' || x == '<' || x == '>') cs
      let b := countWhile pySpace (cs.drop a)
      if b = 0 then none else some (1 + a + b)
    else none

/-- The method name, optional whitespace and opening parenthesis after the
return-arguments group; returns the method-name and whitespace lengths. -/
def javaMethodTail (s : List Char) : Option (Nat × Nat) :=
  match s with
  | [] => none
  | c :: cs =>
    if idStartD c then
      let n2 := 1 + countWhile wordDollar cs
      let n3 := countWhile pySpace (s.drop n2)
      match (s.drop (n2 + n3)).head? with
      | some '(' => some (n2, n3)
      | _ => none
    else none

/-- Lazy repetition of the return-arguments group: the smallest number of
repetitions after which the tail matches. -/
def javaMethodAux : Nat → Nat → List Char → Option (Nat × Nat × Nat)
  | 0, _, _ => none
  | fuel + 1, g1, s =>
    match javaMethodRep s with
    | none => none
    | some r =>
      match javaMethodTail (s.drop r) with
      | some nn => some (g1 + r, nn.1, nn.2)
      | none => javaMethodAux fuel (g1 + r) (s.drop r)

/-- Rule 5 of root: method names, bygroups of a using-this delegate (return
arguments), Name.Function, Text and Punctuation. -/
def javaMethodM (s : List Char) : Option (List Piece) :=
  (javaMethodAux (s.length + 1) 0 s).map (fun x =>
    [(.usingThis, x.1), (.k .nameFunction, x.2.1), (.k .text, x.2.2),
     (.k .punctuation, 1)])

/-- Rule 6: an at-sign, a non-digit word char, then word chars and dots. -/
def javaDecoratorM : List Char → Option Nat
  | '@' :: c :: cs =>
    if idStart c then some (2 + countWhile (fun x => wordChar x || x == '.') cs)
    else none
  | _ => none

/-- Rule: (package)(whitespace), bygroups Keyword.Namespace and Text. -/
def javaPackageM (s : List Char) : Option (List Piece) :=
  kwThenSpace ("package".toList) .keywordNamespace .text s

/-- Rule: (class or interface)(whitespace), bygroups Keyword.Declaration and
Text, pushing the class state. -/
def javaClassDeclM (s : List Char) : Option (List Piece) :=
  kwThenSpace ("class".toList) .keywordDeclaration .text s <|>
  kwThenSpace ("interface".toList) .keywordDeclaration .text s

/-- Rule: (var)(whitespace), bygroups Keyword.Declaration and Text. -/
def javaVarM (s : List Char) : Option (List Piece) :=
  kwThenSpace ("var".toList) .keywordDeclaration .text s

/-- Rule: (import, optionally followed by whitespace and static)(whitespace),
bygroups Keyword.Namespace and Text; the optional part is preferred when the
remainder still matches, as the backtracking engine does. -/
def javaImportM (s : List Char) : Option (List Piece) :=
  if starts ("import".toList) s then
    let s1 := countWhile pySpace (s.drop 6)
    let withStatic : Option (List Piece) :=
      if s1 > 0 && starts ("static".toList) (s.drop (6 + s1)) then
        let s2 := countWhile pySpace (s.drop (6 + s1 + 6))
        if s2 > 0 then some [(.k .keywordNamespace, 6 + s1 + 6), (.k .text, s2)]
        else none
      else none
    withStatic <|>
      (if s1 > 0 then some [(.k .keywordNamespace, 6), (.k .text, s1)] else none)
  else none

/-- Rule: character literal, three alternatives tried left to right: quoted
escape, quoted single non-backslash character, quoted unicode escape. -/
def javaCharM (s : List Char) : Option Nat :=
  (match s with
   | '\'' :: '\\' :: _ :: q :: _ => if q = '\'' then some 4 else none
   | _ => none) <|>
  (match s with
   | '\'' :: c :: q :: _ => if c ≠ '\\' ∧ q = '\'' then some 3 else none
   | _ => none) <|>
  (match s with
   | '\'' :: '\\' :: 'u' :: a :: b :: c :: d :: q :: _ =>
     if hexDigit a ∧ hexDigit b ∧ hexDigit c ∧ hexDigit d ∧ q = '\''
     then some 8 else none
   | _ => none)

/-- Rule: a dot then an identifier, bygroups Punctuation and Name.Attribute. -/
def javaAttrM : List Char → Option (List Piece)
  | '.' :: c :: cs =>
    if idStartD c then
      some [(.k .punctuation, 1), (.k .nameAttribute, 1 + countWhile wordDollar cs)]
    else none
  | _ => none

/-- Rule: a label at line start: optional whitespace, an identifier and a
colon, all as one Name.Label token. -/
def javaLabelM (pv : Option Char) (s : List Char) : Option Nat :=
  if atLineStart pv then
    let a := countWhile pySpace s
    match s.drop a with
    | c :: cs =>
      if idStartD c then
        let b := countWhile wordDollar cs
        match (s.drop (a + 1 + b)).head? with
        | some ':' => some (a + 1 + b + 1)
        | _ => none
      else none
    | [] => none
  else none

/-- Rule: an identifier, Name. -/
def javaNameM : List Char → Option Nat
  | c :: cs => if idStartD c then some (1 + countWhile wordDollar cs) else none
  | [] => none

/-- A decimal exponent: e or E, optional sign, a digit and a digit-or-underscore
run. -/
def javaExpM (s : List Char) : Option Nat :=
  match s with
  | e :: rest =>
    if e = 'e' ∨ e = 'E' then
      let sg := match rest.head? with
        | some '+' => 1
        | some '-' => 1
        | _ => 0
      match (rest.drop sg).head? with
      | some d =>
        if d.isDigit then some (1 + sg + 1 + countWhile digitU (rest.drop (sg + 1)))
        else none
      | _ => none
    else none
  | [] => none

/-- Optional float-suffix character f, F, d or D. -/
def optFD (s : List Char) : Nat :=
  match s.head? with
  | some c => if c = 'f' ∨ c = 'F' ∨ c = 'd' ∨ c = 'D' then 1 else 0
  | _ => 0

/-- Optional long-suffix character l or L. -/
def optLL (s : List Char) : Nat :=
  match s.head? with
  | some c => if c = 'l' ∨ c = 'L' then 1 else 0
  | _ => 0

/-- First float alternative: a decimal with a dot (integer part with optional
fraction, or leading dot with mandatory fraction), an optional exponent and an
optional suffix. -/
def javaFloatAM (s : List Char) : Option Nat :=
  let base : Option Nat :=
    match s with
    | c :: cs =>
      if c.isDigit then
        let a := countWhile digitU cs
        match (cs.drop a).head? with
        | some '.' =>
          let frac :=
            match (cs.drop (a + 1)).head? with
            | some d => if d.isDigit then 1 + countWhile digitU (cs.drop (a + 2)) else 0
            | _ => 0
          some (1 + a + 1 + frac)
        | _ => none
      else if c = '.' then
        match cs.head? with
        | some d => if d.isDigit then some (2 + countWhile digitU (cs.drop 1)) else none
        | _ => none
      else none
    | [] => none
  base.map (fun b =>
    let e := (javaExpM (s.drop b)).getD 0
    b + e + optFD (s.drop (b + e)))

/-- Second float alternative: one digit, a mandatory exponent and an optional
suffix. -/
def javaFloatBM (s : List Char) : Option Nat :=
  match s with
  | c :: cs =>
    if c.isDigit then (javaExpM cs).map (fun e => 1 + e + optFD (cs.drop e))
    else none
  | [] => none

/-- Third float alternative: one digit, an optional exponent and a mandatory
suffix; the exponent is given up when no suffix follows it (backtracking). -/
def javaFloatCM (s : List Char) : Option Nat :=
  match s with
  | c :: cs =>
    if c.isDigit then
      (match javaExpM cs with
       | some e => if optFD (cs.drop e) = 1 then some (1 + e + 1) else none
       | none => none) <|>
      (if optFD cs = 1 then some 2 else none)
    else none
  | [] => none

/-- A binary exponent: p or P, optional sign, a digit and a digit run. -/
def javaHexExpM (s : List Char) : Option Nat :=
  match s with
  | p :: rest =>
    if p = 'p' ∨ p = 'P' then
      let sg := match rest.head? with
        | some '+' => 1
        | some '-' => 1
        | _ => 0
      match (rest.drop sg).head? with
      | some d =>
        if d.isDigit then some (1 + sg + 1 + countWhile digitU (rest.drop (sg + 1)))
        else none
      | _ => none
    else none
  | [] => none

/-- Fourth float alternative: hexadecimal float.  The mantissa alternatives
are tried in the backtracking order of the pattern: hex run with trailing dot,
hex run without dot, hex run dot fraction, leading dot fraction; the first one
after which the binary exponent matches wins. -/
def javaFloatDM (s : List Char) : Option Nat :=
  match s with
  | z :: x :: rest =>
    if z = '0' ∧ (x = 'x' ∨ x = 'X') then
      let h1core : Option Nat :=
        match rest with
        | c :: cs => if hexDigit c then some (1 + countWhile hexU cs) else none
        | [] => none
      let cands : List Nat :=
        (match h1core with
         | some a =>
           (if (rest.drop a).head? = some '.' then [a + 1] else []) ++ [a] ++
           (match (rest.drop a).head? with
            | some '.' =>
              match (rest.drop (a + 1)).head? with
              | some d =>
                if hexDigit d then [a + 2 + countWhile hexU (rest.drop (a + 2))]
                else []
              | _ => []
            | _ => [])
         | none => []) ++
        (match rest with
         | '.' :: c :: cs => if hexDigit c then [2 + countWhile hexU cs] else []
         | _ => [])
      cands.foldl (fun acc m =>
        acc <|> ((javaHexExpM (rest.drop m)).map
          (fun e => 2 + m + e + optFD (rest.drop (m + e))))) none
    else none
  | _ => none

/-- Rule: Number.Float, the four alternatives in declaration order. -/
def javaFloatM (s : List Char) : Option Nat :=
  javaFloatAM s <|> javaFloatBM s <|> javaFloatCM s <|> javaFloatDM s

/-- Rule: Number.Hex. -/
def javaHexM : List Char → Option Nat
  | z :: x :: c :: cs =>
    if z = '0' ∧ (x = 'x' ∨ x = 'X') ∧ hexDigit c then
      let a := countWhile hexU cs
      some (3 + a + optLL (cs.drop a))
    else none
  | _ => none

/-- Rule: Number.Bin. -/
def javaBinM : List Char → Option Nat
  | z :: b :: c :: cs =>
    if z = '0' ∧ (b = 'b' ∨ b = 'B') ∧ (c = '0' ∨ c = '1') then
      let a := countWhile (fun x => x == '0' || x == '1' || x == '_') cs
      some (3 + a + optLL (cs.drop a))
    else none
  | _ => none

/-- Rule: Number.Oct: a zero, then at least one octal digit or underscore. -/
def javaOctM : List Char → Option Nat
  | '0' :: cs =>
    let a := countWhile (fun x => ('0' ≤ x && x ≤ '7') || x == '_') cs
    if a = 0 then none else some (1 + a + optLL (cs.drop a))
  | _ => none

/-- Rule: Number.Integer: a lone zero, or a nonzero digit, a digit run and an
optional long suffix (the alternatives of the pattern in order). -/
def javaIntM : List Char → Option Nat
  | c :: cs =>
    if c = '0' then some 1
    else if c.isDigit then
      let a := countWhile digitU cs
      some (1 + a + optLL (cs.drop a))
    else none
  | [] => none

/-- Rule: Operator single-character class. -/
def javaOpM (s : List Char) : Option Nat :=
  oneOf ("~^*!%&[]<>|+=/?-".toList) s

/-- Rule: Punctuation single-character class. -/
def javaPunctM (s : List Char) : Option Nat :=
  oneOf ("\x7b\x7d();:.,".toList) s

/-- The root state of JavaLexer, rules in declaration order. -/
def javaRootRules : List Rule :=
  [simpleRule .text javaWsM .stay,
   simpleRule .commentSingle javaLineCommentM .stay,
   simpleRule .commentMultiline javaBlockCommentM .stay,
   simpleRule .keyword (wordsB javaKeywords) .stay,
   groupRule javaMethodM .stay,
   simpleRule .nameDecorator javaDecoratorM .stay,
   simpleRule .keywordDeclaration (wordsB javaDeclKeywords) .stay,
   simpleRule .keywordType (wordsB javaTypeKeywords) .stay,
   groupRule javaPackageM (.push "import"),
   simpleRule .keywordConstant (wordsB javaConstants) .stay,
   groupRule javaClassDeclM (.push "class"),
   groupRule javaVarM (.push "var"),
   groupRule javaImportM (.push "import"),
   simpleRule .stringK (litM ['"']) (.push "string"),
   simpleRule .stringChar javaCharM .stay,
   groupRule javaAttrM .stay,
   simpleRuleP .nameLabel javaLabelM .stay,
   simpleRule .nameK javaNameM .stay,
   simpleRule .numberFloat javaFloatM .stay,
   simpleRule .numberHex javaHexM .stay,
   simpleRule .numberBin javaBinM .stay,
   simpleRule .numberOct javaOctM .stay,
   simpleRule .numberInteger javaIntM .stay,
   simpleRule .operator javaOpM .stay,
   simpleRule .punctuation javaPunctM .stay,
   simpleRule .text (oneOf ['\n']) .stay]

/-- The class state: an identifier as Name.Class, popping. -/
def javaClassRules : List Rule :=
  [simpleRule .nameClass javaNameM (.pop 1)]

/-- The var state: an identifier as Name, popping. -/
def javaVarRules : List Rule :=
  [simpleRule .nameK javaNameM (.pop 1)]

/-- The import state: a dotted path with an optional star, Name.Namespace,
popping. -/
def javaImportPathM (s : List Char) : Option Nat :=
  let a := countWhile (fun c => wordChar c || c == '.') s
  if a = 0 then none
  else some (a + (if (s.drop a).head? = some '*' then 1 else 0))

def javaImportRules : List Rule :=
  [simpleRule .nameNamespace javaImportPathM (.pop 1)]

/-- The string state of JavaLexer, rules in declaration order: a run without
backslash or quote, an escaped backslash, an escaped quote, a bare backslash,
and the closing quote (popping). -/
def javaStringRules : List Rule :=
  [simpleRule .stringK (plusC (fun c => c != '\\' && c != '"')) .stay,
   simpleRule .stringK (litM ['\\', '\\']) .stay,
   simpleRule .stringK (litM ['\\', '"']) .stay,
   simpleRule .stringK (litM ['\\']) .stay,
   simpleRule .stringK (litM ['"']) (.pop 1)]

/-- The resolved table of JavaLexer (the tokens dictionary has no includes). -/
def javaTable : Table := fun st =>
  if st = "root" then javaRootRules
  else if st = "class" then javaClassRules
  else if st = "var" then javaVarRules
  else if st = "import" then javaImportRules
  else if st = "string" then javaStringRules
  else []

/-- JavaLexer token stream (get_tokens_unprocessed), fuelled. -/
def javaGetTokens (fuel : Nat) (text : List Char) : Option (List Token) :=
  runFuel javaTable fuel [["root"]] text 0

/-! ### AspectJLexer (src/pygments/lexers/jvm.py, class AspectJLexer)

AspectJLexer inherits the JavaLexer table and rewrites the token stream of
JavaLexer.get_tokens_unprocessed in its own get_tokens_unprocessed. -/

def aj_keywords : List (List Char) :=
  ["aspect", "pointcut", "privileged", "call", "execution",
   "initialization", "preinitialization", "handler", "get", "set",
   "staticinitialization", "target", "args", "within", "withincode",
   "cflow", "cflowbelow", "annotation", "before", "after", "around",
   "proceed", "throwing", "returning", "adviceexecution", "declare",
   "parents", "warning", "error", "soft", "precedence", "thisJoinPoint",
   "thisJoinPointStaticPart", "thisEnclosingJoinPointStaticPart",
   "issingleton", "perthis", "pertarget", "percflow", "percflowbelow",
   "pertypewithin", "lock", "unlock", "thisAspectInstance"].map String.toList

def aj_inter_type : List (List Char) :=
  ["parents:", "warning:", "error:", "soft:", "precedence:"].map String.toList

def aj_inter_type_annotation : List (List Char) :=
  ["@type", "@method", "@constructor", "@field"].map String.toList

/-- The token rewriting loop of AspectJLexer.get_tokens_unprocessed: a Name in
aj_keywords becomes a Keyword; a Name.Label in aj_inter_type becomes a Keyword
with the final character removed followed by an Operator holding the final
character, both at the original index; a Name.Decorator in
aj_inter_type_annotation becomes a Keyword; everything else passes through. -/
def ajPiece (t : Token) : List Token :=
  if t.kind = .nameK ∧ t.value ∈ aj_keywords then
    [⟨t.start, .keyword, t.value⟩]
  else if t.kind = .nameLabel ∧ t.value ∈ aj_inter_type then
    [⟨t.start, .keyword, t.value.dropLast⟩,
     ⟨t.start, .operator, t.value.drop (t.value.length - 1)⟩]
  else if t.kind = .nameDecorator ∧ t.value ∈ aj_inter_type_annotation then
    [⟨t.start, .keyword, t.value⟩]
  else [t]

/-- The rewriting applied to the whole stream, token by token. -/
def ajRewrite : List Token → List Token
  | [] => []
  | t :: ts => ajPiece t ++ ajRewrite ts

/-- AspectJLexer token stream: the rewriting applied to the JavaLexer
stream. -/
def aspectjGetTokens (fuel : Nat) (text : List Char) : Option (List Token) :=
  (javaGetTokens fuel text).map ajRewrite

/-- The per-token case analysis exactly as the claim states it (spec side of
the refinement): used to compare against the implementation ajRewrite. -/
def ajSpecCase (t : Token) : List Token :=
  if t.kind = .nameK ∧ t.value ∈ aj_keywords then
    [⟨t.start, .keyword, t.value⟩]
  else if t.kind = .nameDecorator ∧ t.value ∈ aj_inter_type_annotation then
    [⟨t.start, .keyword, t.value⟩]
  else if t.kind = .nameLabel ∧ t.value ∈ aj_inter_type then
    [⟨t.start, .keyword, t.value.dropLast⟩,
     ⟨t.start, .operator, t.value.drop (t.value.length - 1)⟩]
  else [t]

/-! ### Table building: include resolution

Modelled from the spec (section 3, State): an include directive in a state
definition is replaced in place by a copy of the included state's resolved
rule sequence, at table-build time.  Circular includes are a build-time error
(unsupported); the model truncates them by fuel. -/

/-- An entry of an unresolved state definition: a rule, or an include
directive naming another state. -/
inductive Entry (α : Type) where
  | rule (r : α)
  | inc (st : String)

/-- Resolve a list of entries: rules are kept, an include is replaced in
place by the included state's resolved rules (resolved with one level of
fuel less; the fuel truncates circular includes, which are a build error). -/
def resolveE {α : Type} (defs : String → List (Entry α)) :
    Nat → List (Entry α) → List α
  | 0, es => es.filterMap (fun e =>
      match e with
      | .rule r => some r
      | .inc _ => none)
  | fuel + 1, es => es.flatMap (fun e =>
      match e with
      | .rule r => [r]
      | .inc st => resolveE defs fuel (defs st))

/-- The resolved rule sequence of a named state. -/
def resolveState {α : Type} (defs : String → List (Entry α)) (fuel : Nat)
    (st : String) : List α :=
  resolveE defs fuel (defs st)

/-! ### GroovyLexer (src/pygments/lexers/jvm.py, class GroovyLexer) -/

/-- Rule of root: shebang line, Comment.Preproc, entering base.  The dollar
anchor matches before a newline or at the end of the text. -/
def groovyShebangM (s : List Char) : Option Nat :=
  if starts ("#!".toList) s then
    some (2 + ((findSub ['\n'] (s.drop 2)).getD (s.length - 2)))
  else none

def groovyKeywords : List (List Char) :=
  ["assert", "break", "case", "catch", "continue", "default", "do", "else",
   "finally", "for", "if", "goto", "instanceof", "new", "return", "switch",
   "this", "throw", "try", "while", "in", "as"].map String.toList

def groovyTypeKeywords : List (List Char) :=
  ["def", "boolean", "byte", "char", "double", "float", "int", "long",
   "short", "void"].map String.toList

/-- An ASCII identifier: a letter or underscore then word characters. -/
def asciiIdentM : List Char → Option Nat
  | c :: cs =>
    if c.isAlpha || c == '_' then some (1 + countWhile wordChar cs) else none
  | [] => none

/-- A quoted string body after the opening quote: escaped pairs or characters
other than the quote and backslash, up to and including the closing quote. -/
def strBody (q : Char) : List Char → Option Nat
  | [] => none
  | c :: cs =>
    if c = q then some 1
    else if c = '\\' then
      match cs with
      | _ :: cs2 => (strBody q cs2).map (· + 2)
      | [] => none
    else (strBody q cs).map (· + 1)

/-- A quoted literal delimited by the given quote, with backslash escapes. -/
def quotedM (q : Char) : List Char → Option Nat
  | c :: cs => if c = q then (strBody q cs).map (· + 1) else none
  | [] => none

/-- One repetition of the return-arguments group of the Groovy and Gosu
method-name rules: a letter or underscore, a run of word chars, dots and
square brackets, then mandatory whitespace. -/
def gvyMethodRep (s : List Char) : Option Nat :=
  match s with
  | [] => none
  | c :: cs =>
    if c.isAlpha || c == '_' then
      let a := countWhile (fun x => wordChar x || x == '.' || x == '[' || x == ']') cs
      let b := countWhile pySpace (cs.drop a)
      if b = 0 then none else some (1 + a + b)
    else none

/-- The Groovy method name: a plain identifier, a double-quoted name or a
single-quoted name (alternatives in pattern order). -/
def gvyMethodName (s : List Char) : Option Nat :=
  asciiIdentM s <|> quotedM '"' s <|> quotedM '\'' s

/-- Whitespace then an opening parenthesis after the method name. -/
def gvyMethodAfter (s : List Char) : Option Nat :=
  let n3 := countWhile pySpace s
  match (s.drop n3).head? with
  | some '(' => some n3
  | _ => none

/-- Lazy repetition search for the Groovy and Gosu method-name rules, with a
configurable method-name matcher. -/
def gvyMethodAux (nameM : List Char → Option Nat) :
    Nat → Nat → List Char → Option (Nat × Nat × Nat)
  | 0, _, _ => none
  | fuel + 1, g1, s =>
    match gvyMethodRep s with
    | none => none
    | some r =>
      match nameM (s.drop r) with
      | some n2 =>
        match gvyMethodAfter (s.drop (r + n2)) with
        | some n3 => some (g1 + r, n2, n3)
        | none => gvyMethodAux nameM fuel (g1 + r) (s.drop r)
      | none => gvyMethodAux nameM fuel (g1 + r) (s.drop r)

/-- The Groovy method-name rule: at line start, a group of leading whitespace
and return arguments (lazily repeated), the method name, whitespace, and the
opening parenthesis; bygroups of using-this, Name.Function, Text, Operator. -/
def groovyMethodM (pv : Option Char) (s : List Char) : Option (List Piece) :=
  if atLineStart pv then
    let lead := countWhile pySpace s
    (gvyMethodAux gvyMethodName (s.length + 1) lead (s.drop lead)).map (fun x =>
      [(.usingThis, x.1), (.k .nameFunction, x.2.1), (.k .text, x.2.2),
       (.k .operator, 1)])
  else none

/-- Decorator rule of Groovy and Gosu: an at-sign, a letter or underscore,
then word chars and dots. -/
def gvyDecoratorM : List Char → Option Nat
  | '@' :: c :: cs =>
    if c.isAlpha || c == '_' then
      some (2 + countWhile (fun x => wordChar x || x == '.') cs)
    else none
  | _ => none

/-- Triple-quoted lazy string: the delimiter, a lazy any-run, the delimiter. -/
def tripleM (d : List Char) (s : List Char) : Option Nat :=
  if starts d s then
    (findSub d (s.drop d.length)).map (fun i => d.length + i + d.length)
  else none

/-- The dollar-slashy Groovy string: opening dollar-slash, a lazy run of
characters not starting the closing delimiter, then slash-dollar. -/
def groovyDollarSlashyM (s : List Char) : Option Nat :=
  if starts ("$/".toList) s then
    (findSub ("/$".toList) (s.drop 2)).map (fun i => 2 + i + 2)
  else none

/-- Groovy label: an identifier directly followed by a colon. -/
def groovyLabelM (s : List Char) : Option Nat :=
  (asciiIdentM s).bind (fun n =>
    match (s.drop n).head? with
    | some ':' => some (n + 1)
    | _ => none)

/-- Identifier that may start with a dollar (the Name rule of Groovy and
Gosu). -/
def dollarIdentM : List Char → Option Nat
  | c :: cs =>
    if c.isAlpha || c == '_' || c == '$' then some (1 + countWhile wordChar cs)
    else none
  | [] => none

/-- Attribute access of Groovy: a dot then an identifier, bygroups Operator
and Name.Attribute. -/
def groovyAttrM : List Char → Option (List Piece)
  | '.' :: c :: cs =>
    if c.isAlpha || c == '_' then
      some [(.k .operator, 1), (.k .nameAttribute, 1 + countWhile wordChar cs)]
    else none
  | _ => none

/-- The float rule of Groovy and Gosu: digits, a dot, digits, an optional
unsigned exponent and an optional lowercase suffix. -/
def gvyFloatM (s : List Char) : Option Nat :=
  match s with
  | c :: cs =>
    if c.isDigit then
      let a := countWhile Char.isDigit cs
      match (cs.drop a).head? with
      | some '.' =>
        let b := countWhile Char.isDigit (cs.drop (a + 1))
        if b = 0 then none
        else
          let core := 1 + a + 1 + b
          let e := match (s.drop core).head? with
            | some x =>
              if x = 'e' ∨ x = 'E' then
                let d := countWhile Char.isDigit (s.drop (core + 1))
                if d = 0 then 0 else 1 + d
              else 0
            | _ => 0
          let f := match (s.drop (core + e)).head? with
            | some x => if x = 'f' ∨ x = 'd' then 1 else 0
            | _ => 0
          some (core + e + f)
      | _ => none
    else none
  | [] => none

/-- The hex rule of Groovy: lowercase x, at least one hex digit. -/
def groovyHexM : List Char → Option Nat
  | '0' :: 'x' :: cs => (plusC hexDigit cs).map (· + 2)
  | _ => none

/-- The integer rule of Groovy: digits with an optional uppercase long
suffix. -/
def groovyIntM (s : List Char) : Option Nat :=
  (plusC Char.isDigit s).map (fun a =>
    a + (if (s.drop a).head? = some 'L' then 1 else 0))

/-- The base state of GroovyLexer, rules in declaration order. -/
def groovyBaseRules : List Rule :=
  [simpleRule .text javaWsM .stay,
   simpleRule .commentSingle javaLineCommentM .stay,
   simpleRule .commentMultiline javaBlockCommentM .stay,
   simpleRule .keyword (wordsB groovyKeywords) .stay,
   groupRuleP groovyMethodM .stay,
   simpleRule .nameDecorator gvyDecoratorM .stay,
   simpleRule .keywordDeclaration (wordsB javaDeclKeywords) .stay,
   simpleRule .keywordType (wordsB groovyTypeKeywords) .stay,
   groupRule (kwThenSpace ("package".toList) .keywordNamespace .text) .stay,
   simpleRule .keywordConstant (wordsB javaConstants) .stay,
   groupRule javaClassDeclM (.push "class"),
   groupRule (kwThenSpace ("import".toList) .keywordNamespace .text) (.push "import"),
   simpleRule .stringDouble (tripleM ("\"\"\"".toList)) .stay,
   simpleRule .stringSingle (tripleM ("\x27\x27\x27".toList)) .stay,
   simpleRule .stringDouble (quotedM '"') .stay,
   simpleRule .stringSingle (quotedM '\'') .stay,
   simpleRule .stringK groovyDollarSlashyM .stay,
   simpleRule .stringK (quotedM '/') .stay,
   simpleRule .stringChar javaCharM .stay,
   groupRule groovyAttrM .stay,
   simpleRule .nameLabel groovyLabelM .stay,
   simpleRule .nameK dollarIdentM .stay,
   simpleRule .operator (oneOf ("~^*!%&[](){}<>|+=:;,./?-".toList)) .stay,
   simpleRule .numberFloat gvyFloatM .stay,
   simpleRule .numberHex groovyHexM .stay,
   simpleRule .numberInteger groovyIntM .stay,
   simpleRule .text (oneOf ['\n']) .stay]

/-- The root state of GroovyLexer: the shebang rule, then a default rule
entering base (a pattern-less rule matching a zero-length span whose only
effect is the stack action). -/
def groovyRootRules : List Rule :=
  [simpleRule .commentPreproc groovyShebangM (.push "base"),
   ⟨fun _ _ => some [], .push "base"⟩]

def groovyClassRules : List Rule :=
  [simpleRule .nameClass asciiIdentM (.pop 1)]

def groovyImportRules : List Rule :=
  [simpleRule .nameNamespace javaImportPathM (.pop 1)]

/-- The resolved table of GroovyLexer. -/
def groovyTable : Table := fun st =>
  if st = "root" then groovyRootRules
  else if st = "base" then groovyBaseRules
  else if st = "class" then groovyClassRules
  else if st = "import" then groovyImportRules
  else []

/-! ### GosuLexer and GosuTemplateLexer (src/pygments/lexers/jvm.py) -/

def gosuKeywords : List (List Char) :=
  ["in", "as", "typeof", "statictypeof", "typeis", "typeas", "if", "else",
   "foreach", "for", "index", "while", "do", "continue", "break", "return",
   "try", "catch", "finally", "this", "throw", "new", "switch", "case",
   "default", "eval", "super", "outer", "classpath", "using"].map String.toList

def gosuDeclKeywords : List (List Char) :=
  ["var", "delegate", "construct", "function", "private", "internal",
   "protected", "public", "abstract", "override", "final", "static",
   "extends", "transient", "implements", "represents", "readonly"].map
    String.toList

def gosuTypeKeywords : List (List Char) :=
  ["boolean", "byte", "char", "double", "float", "int", "long", "short",
   "void", "block"].map String.toList

def gosuConstants : List (List Char) :=
  ["true", "false", "null", "NaN", "Infinity"].map String.toList

/-- The Gosu method-name rule (same shape as the Groovy one, with a plain
identifier as the method name). -/
def gosuMethodM (pv : Option Char) (s : List Char) : Option (List Piece) :=
  if atLineStart pv then
    let lead := countWhile pySpace s
    (gvyMethodAux asciiIdentM (s.length + 1) lead (s.drop lead)).map (fun x =>
      [(.usingThis, x.1), (.k .nameFunction, x.2.1), (.k .text, x.2.2),
       (.k .operator, 1)])
  else none

/-- Rule: property declaration, the word property, whitespace and an optional
get or set, all as one Keyword.Declaration token. -/
def gosuPropertyM (s : List Char) : Option Nat :=
  if starts ("property".toList) s then
    let b := countWhile pySpace (s.drop 8)
    if b = 0 then none
    else
      let o := if starts ("get".toList) (s.drop (8 + b)) then 3
        else if starts ("set".toList) (s.drop (8 + b)) then 3
        else 0
      some (8 + b + o)
  else none

/-- Rule: class, interface, enhancement or enum, whitespace and the name;
bygroups Keyword.Declaration, Text, Name.Class. -/
def gosuClassDeclM (s : List Char) : Option (List Piece) :=
  let kw : Option Nat :=
    (litM ("class".toList) s) <|> (litM ("interface".toList) s) <|>
    (litM ("enhancement".toList) s) <|> (litM ("enum".toList) s)
  kw.bind (fun k =>
    let b := countWhile pySpace (s.drop k)
    if b = 0 then none
    else (asciiIdentM (s.drop (k + b))).map (fun n =>
      [(.k .keywordDeclaration, k), (.k .text, b), (.k .nameClass, n)]))

/-- Rule: uses, whitespace and a dotted path with optional star; bygroups
Keyword.Namespace, Text, Name.Namespace. -/
def gosuUsesM (s : List Char) : Option (List Piece) :=
  if starts ("uses".toList) s then
    let b := countWhile pySpace (s.drop 4)
    if b = 0 then none
    else (javaImportPathM (s.drop (4 + b))).map (fun n =>
      [(.k .keywordNamespace, 4), (.k .text, b), (.k .nameNamespace, n)])
  else none

/-- Rule: an optional question mark and a dot or hash, then an identifier;
bygroups Operator and Name.Attribute. -/
def gosuAttrM (s : List Char) : Option (List Piece) :=
  let g1 : Option Nat :=
    match s with
    | '?' :: c :: _ => if c = '.' ∨ c = '#' then some 2 else none
    | c :: _ => if c = '.' ∨ c = '#' then some 1 else none
    | [] => none
  g1.bind (fun n1 =>
    (asciiIdentM (s.drop n1)).map (fun n2 =>
      [(.k .operator, n1), (.k .nameAttribute, n2)]))

/-- Rule: a colon then an identifier; bygroups Operator and Name.Attribute. -/
def gosuColonAttrM (s : List Char) : Option (List Piece) :=
  match s with
  | ':' :: rest =>
    (asciiIdentM rest).map (fun n => [(.k .operator, 1), (.k .nameAttribute, n)])
  | _ => none

/-- The Operator rule of Gosu: the words and, or, not (without boundary), or
one character of the class (which includes a backslash). -/
def gosuOpM (s : List Char) : Option Nat :=
  litM ("and".toList) s <|> litM ("or".toList) s <|> litM ("not".toList) s <|>
  oneOf ("\\~^*!%&[](){}<>|+=:;,./?-".toList) s

/-- Any single character (the dot with the dot-matches-all flag). -/
def anyCharM : List Char → Option Nat
  | _ :: _ => some 1
  | [] => none

/-- Rule of templateText: template-directive start, whitespace and the word
extends or params; bygroups Operator and Name.Decorator. -/
def gosuDirectiveM (s : List Char) : Option (List Piece) :=
  if starts ("<%@".toList) s then
    let b := countWhile pySpace (s.drop 3)
    if b = 0 then none
    else
      ((litM ("extends".toList) (s.drop (3 + b))) <|>
       (litM ("params".toList) (s.drop (3 + b)))).map (fun n =>
        [(.k .operator, 3 + b), (.k .nameDecorator, n)])
  else none

/-- The root state of GosuLexer, rules in declaration order. -/
def gosuRootRules : List Rule :=
  [groupRuleP gosuMethodM .stay,
   simpleRule .text javaWsM .stay,
   simpleRule .commentSingle javaLineCommentM .stay,
   simpleRule .commentMultiline javaBlockCommentM .stay,
   simpleRule .nameDecorator gvyDecoratorM .stay,
   simpleRule .keyword (wordsB gosuKeywords) .stay,
   simpleRule .keywordDeclaration (wordsB gosuDeclKeywords) .stay,
   simpleRule .keywordDeclaration gosuPropertyM .stay,
   simpleRule .keywordType (wordsB gosuTypeKeywords) .stay,
   groupRule (kwThenSpace ("package".toList) .keywordNamespace .text) .stay,
   simpleRule .keywordConstant (wordsB gosuConstants) .stay,
   groupRule gosuClassDeclM .stay,
   groupRule gosuUsesM .stay,
   simpleRule .stringK (litM ['"']) (.push "string"),
   groupRule gosuAttrM .stay,
   groupRule gosuColonAttrM .stay,
   simpleRule .nameK dollarIdentM .stay,
   simpleRule .operator gosuOpM .stay,
   simpleRule .numberFloat gvyFloatM .stay,
   simpleRule .numberInteger (plusC Char.isDigit) .stay,
   simpleRule .text (oneOf ['\n']) .stay]

/-- The templateText state of GosuLexer, rules in declaration order. -/
def gosuTemplateTextRules : List Rule :=
  [simpleRule .stringK (fun s => litM ("\\<".toList) s <|> litM ("\\$".toList) s) .stay,
   groupRule gosuDirectiveM (.push "stringTemplate"),
   simpleRule .commentMultiline (fun s =>
     if starts ("<%!--".toList) s then
       (findSub ("--%>".toList) (s.drop 5)).map (fun i => 5 + i + 4)
     else none) .stay,
   simpleRule .operator (fun s => litM ("<%".toList) s <|> litM ("<%=".toList) s)
     (.push "stringTemplate"),
   simpleRule .operator (litM ['$', '\x7b']) (.push "stringTemplateShorthand"),
   simpleRule .stringK anyCharM .stay]

/-- The unresolved state definitions of GosuLexer, with the include
directives as in the source. -/
def gosuDefs (st : String) : List (Entry Rule) :=
  if st = "root" then gosuRootRules.map .rule
  else if st = "templateText" then gosuTemplateTextRules.map .rule
  else if st = "string" then
    [.rule (simpleRule .stringK (litM ['"']) (.pop 1)), .inc "templateText"]
  else if st = "stringTemplate" then
    [.rule (simpleRule .stringK (litM ['"']) (.push "string")),
     .rule (simpleRule .operator (litM ("%>".toList)) (.pop 1)),
     .inc "root"]
  else if st = "stringTemplateShorthand" then
    [.rule (simpleRule .stringK (litM ['"']) (.push "string")),
     .rule (simpleRule .operator (litM ['\x7b']) (.push "stringTemplateShorthand")),
     .rule (simpleRule .operator (litM ['\x7d']) (.pop 1)),
     .inc "root"]
  else []

/-- The resolved table of GosuLexer. -/
def gosuTable : Table := fun st => resolveState gosuDefs 3 st

/-- GosuTemplateLexer.get_tokens_unprocessed: a fresh GosuLexer run on the
text with initial state stack templateText. -/
def gosuTemplateGetTokens (fuel : Nat) (text : List Char) : Option (List Token) :=
  runFuel gosuTable fuel [["templateText"]] text 0

/-! ### ScalaLexer (src/pygments/lexers/jvm.py, class ScalaLexer)

The include-flattening claim is about resolved rule order, so the Scala table
is embedded as inert rule data: the pattern text (built from the same
fragment definitions as the source), the token action descriptor, and the new
state.  Matching behaviour is not needed for that claim. -/

/-- Modelled from the spec: pygments.unistring.combine is outside the
analysed sources; it returns the character-class body for the named Unicode
categories.  Its exact text is irrelevant to rule identity and order, which
is all the include-flattening claim concerns; it is modelled as the
concatenation of the category names. -/
def uniCombine (cats : List String) : String := String.join cats

/-- Modelled from the spec: the choice-from-word-list helper (words) builds
an alternation from the word list with the given prefix and suffix. -/
def wordsPat (pre : String) (ws : List String) (suf : String) : String :=
  pre ++ "(" ++ String.intercalate "|" ws ++ ")" ++ suf

def scalaOpchar : String := "[!#%&*\\-\\/:?@^" ++ uniCombine ["Sm", "So"] ++ "]"
def scalaLetter : String := "[_\\$" ++ uniCombine ["Ll", "Lu", "Lo", "Nl", "Lt"] ++ "]"
def scalaUpperLetter : String := "[" ++ uniCombine ["Lu", "Lt"] ++ "]"
def scalaLetterOrDigit : String := "(?:" ++ scalaLetter ++ "|[0-9])"
def scalaLetterOrDigitNoDollarSign : String :=
  "(?:" ++ scalaLetter.replace "\\$" "" ++ "|[0-9])"
def scalaAlphaId : String := scalaLetter ++ "+"
def scalaSimpleInterpolatedVariable : String :=
  scalaLetter ++ scalaLetterOrDigitNoDollarSign ++ "*"
def scalaIdrest : String :=
  scalaLetter ++ scalaLetterOrDigit ++ "*(?:(?<=_)" ++ scalaOpchar ++ "+)?"
def scalaIdUpper : String :=
  scalaUpperLetter ++ scalaLetterOrDigit ++ "*(?:(?<=_)" ++ scalaOpchar ++ "+)?"
def scalaPlainid : String :=
  "(?:" ++ scalaIdrest ++ "|" ++ scalaOpchar ++ "+)"
def scalaBackQuotedId : String := "`[^`]+`"
def scalaAnyId : String := "(?:" ++ scalaPlainid ++ "|" ++ scalaBackQuotedId ++ ")"
def scalaNotStartOfComment : String := "(?!//|/\\*)"
def scalaEndOfLineMaybeWithComment : String := "(?=\\s*(//|$))"

def scalaKeywords : List String :=
  ["new", "return", "throw", "classOf", "isInstanceOf", "asInstanceOf",
   "else", "if", "then", "do", "while", "for", "yield", "match", "case",
   "catch", "finally", "try"]

def scalaOperators : List String :=
  ["<%", "=:=", "<:<", "<%<", ">:", "<:", "=", "==", "!=", "<=", ">=",
   "<>", "<", ">", "<-", "←", "->", "→", "=>", "⇒", "?", "@", "|", "-",
   "+", "*", "%", "~"]

def scalaStorageModifiers : List String :=
  ["private", "protected", "synchronized", "@volatile", "abstract",
   "final", "lazy", "sealed", "implicit", "override", "@transient",
   "@native"]

/-- A Scala rule as inert data: pattern text, token-action descriptor, new
state (empty for none). -/
structure ScalaRule where
  pattern : String
  action : String
  newState : String
deriving DecidableEq, Repr

/-- A rule entry without a state transition. -/
def sr (p a : String) : Entry ScalaRule := .rule ⟨p, a, ""⟩

/-- A rule entry with a state transition. -/
def srS (p a ns : String) : Entry ScalaRule := .rule ⟨p, a, ns⟩

/-- The state definitions of ScalaLexer, in declaration order.  The root
state is a list of includes only. -/
def scalaDefs (st : String) : List (Entry ScalaRule) :=
  if st = "root" then
    [.inc "whitespace", .inc "comments", .inc "script-header", .inc "imports",
     .inc "exports", .inc "storage-modifiers", .inc "annotations",
     .inc "using", .inc "declarations", .inc "inheritance", .inc "extension",
     .inc "end", .inc "constants", .inc "strings", .inc "symbols",
     .inc "singleton-type", .inc "inline", .inc "quoted", .inc "keywords",
     .inc "operators", .inc "punctuation", .inc "names"]
  else if st = "whitespace" then
    [sr "\\s+" "Text"]
  else if st = "comments" then
    [sr "//.*?\\n" "Comment.Single",
     srS "/\\*" "Comment.Multiline" "comment"]
  else if st = "script-header" then
    [sr "^#!([^\\n]*)$" "Comment.Hashbang"]
  else if st = "imports" then
    [srS "\\b(import)(\\s+)" "bygroups(Keyword, Text)" "import-path"]
  else if st = "exports" then
    [srS "\\b(export)(\\s+)(given)(\\s+)"
       "bygroups(Keyword, Text, Keyword, Text)" "export-path",
     srS "\\b(export)(\\s+)" "bygroups(Keyword, Text)" "export-path"]
  else if st = "storage-modifiers" then
    [sr (wordsPat "\\b" scalaStorageModifiers "\\b") "Keyword",
     sr ("\\b(transparent|opaque|infix|open|inline)\\b(?=[a-z\\s]*\\b" ++
       "(def|val|var|given|type|class|trait|object|enum)\\b)") "Keyword"]
  else if st = "annotations" then
    [sr ("@" ++ scalaIdrest) "Name.Decorator"]
  else if st = "using" then
    [sr "(\\()(\\s*)(using)(\\s)" "bygroups(Punctuation, Text, Keyword, Text)"]
  else if st = "declarations" then
    [sr ("\\b(def)\\b(\\s*)" ++ scalaNotStartOfComment ++ "(" ++ scalaAnyId ++ ")?")
       "bygroups(Keyword, Text, Name.Function)",
     sr ("\\b(trait)\\b(\\s*)" ++ scalaNotStartOfComment ++ "(" ++ scalaAnyId ++ ")?")
       "bygroups(Keyword, Text, Name.Class)",
     sr ("\\b(?:(case)(\\s+))?(class|object|enum)\\b(\\s*)" ++
       scalaNotStartOfComment ++ "(" ++ scalaAnyId ++ ")?")
       "bygroups(Keyword, Text, Keyword, Text, Name.Class)",
     sr ("(?<!\\.)\\b(type)\\b(\\s*)" ++ scalaNotStartOfComment ++
       "(" ++ scalaAnyId ++ ")?")
       "bygroups(Keyword, Text, Name.Class)",
     sr "\\b(val|var)\\b" "Keyword.Declaration",
     sr ("\\b(package)(\\s+)(object)\\b(\\s*)" ++ scalaNotStartOfComment ++
       "(" ++ scalaAnyId ++ ")?")
       "bygroups(Keyword, Text, Keyword, Text, Name.Namespace)",
     srS "\\b(package)(\\s+)" "bygroups(Keyword, Text)" "package",
     sr ("\\b(given)\\b(\\s*)(" ++ scalaIdUpper ++ ")")
       "bygroups(Keyword, Text, Name.Class)",
     sr ("\\b(given)\\b(\\s*)(" ++ scalaAnyId ++ ")?")
       "bygroups(Keyword, Text, Name)"]
  else if st = "inheritance" then
    [sr ("\\b(extends|with|derives)\\b(\\s*)" ++
       "(" ++ scalaIdUpper ++ "|" ++ scalaBackQuotedId ++
       "|(?=\\([^\\)]+=>)|(?=" ++ scalaPlainid ++ ")|(?=\"))?")
       "bygroups(Keyword, Text, Name.Class)"]
  else if st = "extension" then
    [sr "\\b(extension)(\\s+)(?=[\\[\\(])" "bygroups(Keyword, Text)"]
  else if st = "end" then
    [sr "\\b(end)(\\s+)(if|while|for|match|new|extension|val|var)\\b"
       "bygroups(Keyword, Text, Keyword)",
     sr ("\\b(end)(\\s+)(" ++ scalaIdUpper ++ ")" ++ scalaEndOfLineMaybeWithComment)
       "bygroups(Keyword, Text, Name.Class)",
     sr ("\\b(end)(\\s+)(" ++ scalaBackQuotedId ++ "|" ++ scalaPlainid ++ ")?" ++
       scalaEndOfLineMaybeWithComment)
       "bygroups(Keyword, Text, Name.Namespace)"]
  else if st = "punctuation" then
    [sr "[\x7b\x7d()\\[\\];,.]" "Punctuation",
     sr "(?<!:):(?!:)" "Punctuation"]
  else if st = "keywords" then
    [sr (wordsPat "\\b" scalaKeywords "\\b") "Keyword"]
  else if st = "operators" then
    [sr ("(" ++ scalaOpchar ++ "\x7b2,\x7d)(\\s+)") "bygroups(Operator, Text)",
     sr "/(?![/*])" "Operator",
     sr (wordsPat "" scalaOperators "") "Operator",
     sr ("(?<!" ++ scalaOpchar ++ ")(!|&&|\\|\\|)(?!" ++ scalaOpchar ++ ")")
       "Operator"]
  else if st = "constants" then
    [sr "\\b(this|super)\\b" "Name.Builtin.Pseudo",
     sr "(true|false|null)\\b" "Keyword.Constant",
     sr "0[xX][0-9a-fA-F_]*" "Number.Hex",
     sr ("([0-9][0-9_]*\\.[0-9][0-9_]*|\\.[0-9][0-9_]*)" ++
       "([eE][+-]?[0-9][0-9_]*)?[fFdD]?") "Number.Float",
     sr "[0-9]+([eE][+-]?[0-9]+)?[fFdD]" "Number.Float",
     sr "[0-9]+([eE][+-]?[0-9]+)[fFdD]?" "Number.Float",
     sr "[0-9]+[lL]" "Number.Integer.Long",
     sr "[0-9]+" "Number.Integer",
     sr "\"\"\".*?\"\"\"(?!\")" "String",
     sr "\"(\\\\\\\\|\\\\\"|[^\"])*\"" "String",
     sr "(\x27)(\\\\.)(\x27)" "bygroups(String.Char, String.Escape, String.Char)",
     sr "\x27[^\\\\]\x27|\x27\\\\u[0-9a-fA-F]\x7b4\x7d\x27" "String.Char"]
  else if st = "strings" then
    [srS "[fs]\"\"\"" "String" "interpolated-string-triple",
     srS "[fs]\"" "String" "interpolated-string",
     sr "raw\"(\\\\\\\\|\\\\\"|[^\"])*\"" "String"]
  else if st = "symbols" then
    [sr ("(\x27" ++ scalaPlainid ++ ")(?!\x27)") "String.Symbol"]
  else if st = "singleton-type" then
    [sr "(\\.)(type)\\b" "bygroups(Punctuation, Keyword)"]
  else if st = "inline" then
    [sr ("\\b(inline)(?=\\s+(" ++ scalaPlainid ++ "|" ++ scalaBackQuotedId ++
       ")\\s*:)") "Keyword",
     sr "\\b(inline)\\b(?=(?:.(?!\\b(?:val|def|given)\\b))*\\b(if|match)\\b)"
       "Keyword"]
  else if st = "quoted" then
    [sr "[\x27$]\\\x7b(?!\x27)" "Punctuation",
     sr "\x27\\[(?!\x27)" "Punctuation"]
  else if st = "names" then
    [sr scalaIdUpper "Name.Class",
     sr scalaAnyId "Name"]
  else if st = "comment" then
    [sr "[^/*]+" "Comment.Multiline",
     srS "/\\*" "Comment.Multiline" "#push",
     srS "\\*/" "Comment.Multiline" "#pop",
     sr "[*/]" "Comment.Multiline"]
  else if st = "import-path" then
    [srS "(?<=[\\n;:])" "Text" "#pop",
     .inc "comments",
     sr "\\b(given)\\b" "Keyword",
     .inc "qualified-name",
     srS "\\\x7b" "Punctuation" "import-path-curly-brace"]
  else if st = "import-path-curly-brace" then
    [.inc "whitespace",
     .inc "comments",
     sr "\\b(given)\\b" "Keyword",
     sr "=>" "Operator",
     srS "\\\x7d" "Punctuation" "#pop",
     sr "," "Punctuation",
     sr "[\\[\\]]" "Punctuation",
     .inc "qualified-name"]
  else if st = "export-path" then
    [srS "(?<=[\\n;:])" "Text" "#pop",
     .inc "comments",
     .inc "qualified-name",
     srS "\\\x7b" "Punctuation" "export-path-curly-brace"]
  else if st = "export-path-curly-brace" then
    [.inc "whitespace",
     .inc "comments",
     sr "=>" "Operator",
     srS "\\\x7d" "Punctuation" "#pop",
     sr "," "Punctuation",
     .inc "qualified-name"]
  else if st = "package" then
    [srS "(?<=[\\n;])" "Text" "#pop",
     srS ":" "Punctuation" "#pop",
     .inc "comments",
     .inc "qualified-name"]
  else if st = "interpolated-string-triple" then
    [srS "\"\"\"(?!\")" "String" "#pop",
     sr "\"" "String",
     .inc "interpolated-string-common"]
  else if st = "interpolated-string" then
    [srS "\"" "String" "#pop",
     .inc "interpolated-string-common"]
  else if st = "interpolated-string-brace" then
    [srS "\\\x7d" "String.Interpol" "#pop",
     srS "\\\x7b" "Punctuation" "interpolated-string-nested-brace",
     .inc "root"]
  else if st = "interpolated-string-nested-brace" then
    [srS "\\\x7b" "Punctuation" "#push",
     srS "\\\x7d" "Punctuation" "#pop",
     .inc "root"]
  else if st = "qualified-name" then
    [sr scalaIdUpper "Name.Class",
     sr ("(" ++ scalaAnyId ++ ")(\\.)") "bygroups(Name.Namespace, Punctuation)",
     sr "\\." "Punctuation",
     sr scalaAnyId "Name",
     sr "[^\\S\\n]+" "Text"]
  else if st = "interpolated-string-common" then
    [sr "[^\"$\\\\]+" "String",
     sr "\\$\\$" "String.Escape",
     sr ("(\\$)(" ++ scalaSimpleInterpolatedVariable ++ ")")
       "bygroups(String.Interpol, Name)",
     srS "\\$\\\x7b" "String.Interpol" "interpolated-string-brace",
     sr "\\\\." "String"]
  else []

/-! ### Validity predicates and small demonstration tables -/

/-- A table none of whose rules can match a zero-length span while carrying a
stack action, and whose delegate pieces are strictly shorter than the suffix
they were matched at.  Under these conditions every loop iteration advances
the cursor. -/
def GoodTable (tbl : Table) : Prop :=
  ∀ st r, r ∈ tbl st → ∀ pv s ps, r.matcher pv s = some ps →
    (piecesLen ps = 0 → r.action = .stay) ∧
    (∀ n, (PieceKind.usingThis, n) ∈ ps → n < s.length)

/-- A table whose matchers never claim more characters than the suffix has
(true of every matcher compiled from a pattern, which can only consume
characters that exist). -/
def TotalLe (tbl : Table) : Prop :=
  ∀ st r, r ∈ tbl st → ∀ pv s ps, r.matcher pv s = some ps →
    piecesLen ps ≤ s.length

/-- The table with no rules at all: every character goes through the
fallback path. -/
def emptyTable : Table := fun _ => []

/-- The full fallback token stream: one error token per character. -/
def errTokens (text : List Char) : List Token :=
  (List.range text.length).map (fun i => ⟨i, .errorK, (text.drop i).take 1⟩)

/-- A valid table (it builds: no undefined states, no include cycles, no
malformed patterns) whose root state consists of one default-style rule: it
matches a zero-length span everywhere and pushes root. -/
def loopTable : Table := fun st =>
  if st = "root" then [⟨fun _ _ => some [], .push "root"⟩] else []

/-- A table whose root consumes exactly one character as Text. -/
def oneCharTable : Table := fun st =>
  if st = "root" then
    [⟨fun _ s => match s with
      | [] => none
      | _ :: _ => some [(.k .text, 1)], .stay⟩]
  else []

/-- A table whose root consumes one character and pops unconditionally (more
entries than the stack holds). -/
def popDemoTable : Table := fun st =>
  if st = "root" then
    [⟨fun _ s => match s with
      | [] => none
      | _ :: _ => some [(.k .text, 1)], .pop 5⟩]
  else []

/-! ### Supporting lemmas -/

lemma concatValues_append (xs ys : List Token) :
    concatValues (xs ++ ys) = concatValues xs ++ concatValues ys := by
  simp [concatValues]

lemma concatValues_rebase (p : Nat) (ts : List Token) :
    concatValues (ts.map (fun t => { t with start := t.start + p })) =
      concatValues ts := by
  induction ts with
  | nil => rfl
  | cons t ts ih => simpa [concatValues] using congrArg (t.value ++ ·) ih

lemma piecesLen_cons (pk : PieceKind) (n : Nat) (rest : List Piece) :
    piecesLen ((pk, n) :: rest) = n + piecesLen rest := by
  simp [piecesLen]

lemma drop_take_glue (l : List Char) (p n : Nat) :
    (l.drop p).take n ++ l.drop (p + n) = l.drop p := by
  have h := List.take_append_drop n (l.drop p)
  rwa [List.drop_drop] at h

lemma slice_glue (l : List Char) (p n m : Nat) :
    (l.drop p).take n ++ (l.drop (p + n)).take m = (l.drop p).take (n + m) := by
  rw [List.take_add, List.drop_drop]

lemma emit_concat (runner : List Char → Option (List Token)) (text : List Char)
    (hr : ∀ sub ts, runner sub = some ts → concatValues ts = sub) :
    ∀ (ps : List Piece) (pos : Nat) (toks : List Token),
      emitPieces runner text pos ps = some toks →
      concatValues toks = (text.drop pos).take (piecesLen ps) := by
  intro ps
  induction ps with
  | nil =>
    intro pos toks h
    simp only [emitPieces, Option.some_inj] at h
    subst h
    simp [concatValues, piecesLen]
  | cons pn rest ih =>
    intro pos toks h
    obtain ⟨pk, n⟩ := pn
    simp only [emitPieces] at h
    cases hrest : emitPieces runner text (pos + n) rest with
    | none => rw [hrest] at h; simp at h
    | some ts =>
      rw [hrest] at h
      cases pk with
      | k kind =>
        simp only [Option.some_inj] at h
        subst h
        rw [piecesLen_cons]
        by_cases hn : n = 0
        · subst hn
          rw [if_pos rfl]
          simpa using ih (pos + 0) ts hrest
        · rw [if_neg hn]
          have hts := ih (pos + n) ts hrest
          simp only [concatValues, List.map_cons, List.flatten_cons]
          rw [show (ts.map Token.value).flatten = concatValues ts from rfl, hts]
          exact slice_glue text pos n (piecesLen rest)
      | usingThis =>
        cases hsub : runner ((text.drop pos).take n) with
        | none => rw [hsub] at h; simp at h
        | some sub =>
          rw [hsub] at h
          simp only [Option.some_inj] at h
          subst h
          rw [piecesLen_cons, concatValues_append, concatValues_rebase,
            hr _ _ hsub, ih (pos + n) ts hrest]
          exact slice_glue text pos n (piecesLen rest)

lemma run_concat : ∀ (fuel : Nat) (tbl : Table) (stack : List (List String))
    (text : List Char) (pos : Nat) (toks : List Token),
    runFuel tbl fuel stack text pos = some toks →
    concatValues toks = text.drop pos := by
  intro fuel
  induction fuel with
  | zero => intro tbl stack text pos toks h; simp [runFuel] at h
  | succ fuel ih =>
    intro tbl stack text pos toks h
    simp only [runFuel] at h
    by_cases hlt : pos < text.length
    · rw [if_pos hlt] at h
      cases hsel : selectIdx ((stack.headD []).flatMap tbl) (prevChar text pos)
          (text.drop pos) with
      | none =>
        rw [hsel] at h
        simp only [Option.map_eq_some'] at h
        obtain ⟨ts, hrec, hts⟩ := h
        subst hts
        have hc := ih tbl stack text (pos + 1) ts hrec
        simp only [concatValues, List.map_cons, List.flatten_cons]
        rw [show (ts.map Token.value).flatten = concatValues ts from rfl, hc]
        exact drop_take_glue text pos 1
      | some ips =>
        rw [hsel] at h
        simp only at h
        by_cases hz : piecesLen ips.2 = 0 ∧
            ((((stack.headD []).flatMap tbl).getD ips.1 noRule).action = .stay)
        · rw [if_pos hz] at h
          simp only [Option.map_eq_some'] at h
          obtain ⟨ts, hrec, hts⟩ := h
          subst hts
          have hc := ih tbl stack text (pos + 1) ts hrec
          simp only [concatValues, List.map_cons, List.flatten_cons]
          rw [show (ts.map Token.value).flatten = concatValues ts from rfl, hc]
          exact drop_take_glue text pos 1
        · rw [if_neg hz] at h
          cases hemit : emitPieces (fun sub => runFuel tbl fuel [["root"]] sub 0)
              text pos ips.2 with
          | none => rw [hemit] at h; simp at h
          | some emitted =>
            rw [hemit] at h
            simp only [Option.map_eq_some'] at h
            obtain ⟨ts, hrec, hts⟩ := h
            subst hts
            have hr : ∀ sub ts2,
                runFuel tbl fuel [["root"]] sub 0 = some ts2 →
                concatValues ts2 = sub := by
              intro sub ts2 hh
              simpa using ih tbl [["root"]] sub 0 ts2 hh
            have he := emit_concat _ text hr ips.2 pos emitted hemit
            have hc := ih tbl (applyAction (((stack.headD []).flatMap
              tbl).getD ips.1 noRule).action stack) text
              (pos + piecesLen ips.2) ts hrec
            rw [concatValues_append, he, hc]
            exact drop_take_glue text pos (piecesLen ips.2)
    · rw [if_neg hlt] at h
      simp only [Option.some_inj] at h
      subst h
      have : text.length ≤ pos := Nat.le_of_not_lt hlt
      simp [concatValues, List.drop_eq_nil_of_le this]

lemma selectIdx_spec : ∀ (rules : List Rule) (pv : Option Char) (s : List Char)
    (i : Nat) (ps : List Piece), selectIdx rules pv s = some (i, ps) →
    (∃ r, rules[i]? = some r ∧ r.matcher pv s = some ps) ∧
    ∀ j, j < i → ∀ r', rules[j]? = some r' → r'.matcher pv s = none := by
  intro rules
  induction rules with
  | nil => intro pv s i ps h; simp [selectIdx] at h
  | cons r rest ih =>
    intro pv s i ps h
    simp only [selectIdx] at h
    cases hm : r.matcher pv s with
    | some ps0 =>
      rw [hm] at h
      simp only [Option.some_inj, Prod.mk.injEq] at h
      obtain ⟨hi, hps⟩ := h
      subst hi; subst hps
      refine ⟨⟨r, by simp, hm⟩, ?_⟩
      intro j hj r' hr'
      exact absurd hj (Nat.not_lt_zero j)
    | none =>
      rw [hm] at h
      simp only [Option.map_eq_some'] at h
      obtain ⟨⟨i', ps'⟩, hsel, hip⟩ := h
      simp only [Prod.mk.injEq] at hip
      obtain ⟨hi, hps⟩ := hip
      subst hi; subst hps
      obtain ⟨⟨r0, hr0, hm0⟩, hnone⟩ := ih pv s i' ps' hsel
      refine ⟨⟨r0, by simpa using hr0, hm0⟩, ?_⟩
      intro j hj r' hr'
      cases j with
      | zero => simp only [List.getElem?_cons_zero, Option.some_inj] at hr'; rw [← hr']; exact hm
      | succ j' =>
        simp only [List.getElem?_cons_succ] at hr'
        exact hnone j' (by omega) r' hr'

lemma selectIdx_rule_mem {rules : List Rule} {pv : Option Char} {s : List Char}
    {i : Nat} {ps : List Piece} (h : selectIdx rules pv s = some (i, ps)) :
    rules.getD i noRule ∈ rules ∧
    (rules.getD i noRule).matcher pv s = some ps := by
  obtain ⟨⟨r, hr, hm⟩, _⟩ := selectIdx_spec rules pv s i ps h
  have hg : rules.getD i noRule = r := by
    rw [List.getD_eq_getElem?_getD, hr]; rfl
  rw [hg]
  exact ⟨List.getElem?_mem hr, hm⟩

lemma tiling_append {p : Nat} {xs ys : List Token} (hx : Tiling p xs)
    (hy : Tiling (p + (concatValues xs).length) ys) : Tiling p (xs ++ ys) := by
  induction xs generalizing p with
  | nil => simpa [concatValues] using hy
  | cons t xs ih =>
    obtain ⟨hstart, hrest⟩ := hx
    refine ⟨hstart, ih hrest ?_⟩
    have : p + t.value.length + (concatValues xs).length =
        p + (concatValues (t :: xs)).length := by
      simp [concatValues]; omega
    rw [this]; exact hy

lemma tiling_rebase {q : Nat} (p : Nat) {ts : List Token} (h : Tiling q ts) :
    Tiling (q + p) (ts.map (fun t => { t with start := t.start + p })) := by
  induction ts generalizing q with
  | nil => trivial
  | cons t ts ih =>
    obtain ⟨hstart, hrest⟩ := h
    have h1 : (q + t.value.length) + p = (q + p) + t.value.length := by omega
    refine ⟨?_, ?_⟩
    · show t.start + p = q + p
      omega
    · have h2 := ih hrest
      rw [h1] at h2
      exact h2

lemma emit_tiling (runner : List Char → Option (List Token)) (text : List Char)
    (hr : ∀ sub ts, runner sub = some ts →
      concatValues ts = sub ∧ Tiling 0 ts) :
    ∀ (ps : List Piece) (pos : Nat) (toks : List Token),
      emitPieces runner text pos ps = some toks →
      pos + piecesLen ps ≤ text.length →
      Tiling pos toks := by
  intro ps
  induction ps with
  | nil =>
    intro pos toks h _
    simp only [emitPieces, Option.some_inj] at h
    subst h; trivial
  | cons pn rest ih =>
    intro pos toks h hb
    obtain ⟨pk, n⟩ := pn
    rw [piecesLen_cons] at hb
    have hb1 : pos + n ≤ text.length := by omega
    have hb2 : (pos + n) + piecesLen rest ≤ text.length := by omega
    have hlen : ((text.drop pos).take n).length = n := by
      rw [List.length_take, List.length_drop]
      omega
    simp only [emitPieces] at h
    cases hrest : emitPieces runner text (pos + n) rest with
    | none => rw [hrest] at h; simp at h
    | some ts =>
      rw [hrest] at h
      have hts := ih (pos + n) ts hrest hb2
      cases pk with
      | k kind =>
        simp only [Option.some_inj] at h
        subst h
        by_cases hn : n = 0
        · subst hn
          rw [if_pos rfl]
          simpa using hts
        · rw [if_neg hn]
          exact ⟨rfl, by simpa [hlen] using hts⟩
      | usingThis =>
        cases hsub : runner ((text.drop pos).take n) with
        | none => rw [hsub] at h; simp at h
        | some sub =>
          rw [hsub] at h
          simp only [Option.some_inj] at h
          subst h
          obtain ⟨hc, ht0⟩ := hr _ _ hsub
          have hreb := tiling_rebase (q := 0) pos ht0
          rw [Nat.zero_add] at hreb
          refine tiling_append hreb ?_
          rw [concatValues_rebase, hc, hlen]
          exact hts

lemma run_tiling {tbl : Table} (htot : TotalLe tbl) :
    ∀ (fuel : Nat) (stack : List (List String)) (text : List Char) (pos : Nat)
    (toks : List Token), runFuel tbl fuel stack text pos = some toks →
    Tiling pos toks := by
  intro fuel
  induction fuel with
  | zero => intro stack text pos toks h; simp [runFuel] at h
  | succ fuel ih =>
    intro stack text pos toks h
    simp only [runFuel] at h
    by_cases hlt : pos < text.length
    · rw [if_pos hlt] at h
      have hlen1 : ((text.drop pos).take 1).length = 1 := by
        rw [List.length_take, List.length_drop]
        omega
      cases hsel : selectIdx ((stack.headD []).flatMap tbl) (prevChar text pos)
          (text.drop pos) with
      | none =>
        rw [hsel] at h
        simp only [Option.map_eq_some'] at h
        obtain ⟨ts, hrec, hts⟩ := h
        subst hts
        exact ⟨rfl, by rw [hlen1]; exact ih stack text (pos + 1) ts hrec⟩
      | some ips =>
        rw [hsel] at h
        simp only at h
        by_cases hz : piecesLen ips.2 = 0 ∧
            ((((stack.headD []).flatMap tbl).getD ips.1 noRule).action = .stay)
        · rw [if_pos hz] at h
          simp only [Option.map_eq_some'] at h
          obtain ⟨ts, hrec, hts⟩ := h
          subst hts
          exact ⟨rfl, by rw [hlen1]; exact ih stack text (pos + 1) ts hrec⟩
        · rw [if_neg hz] at h
          cases hemit : emitPieces (fun sub => runFuel tbl fuel [["root"]] sub 0)
              text pos ips.2 with
          | none => rw [hemit] at h; simp at h
          | some emitted =>
            rw [hemit] at h
            simp only [Option.map_eq_some'] at h
            obtain ⟨ts, hrec, hts⟩ := h
            subst hts
            have hmem := selectIdx_rule_mem hsel
            obtain ⟨st, hstmem, hrulemem⟩ :=
              List.mem_flatMap.mp hmem.1
            have hle := htot st _ hrulemem _ _ _ hmem.2
            rw [List.length_drop] at hle
            have hb : pos + piecesLen ips.2 ≤ text.length := by omega
            have hr : ∀ sub ts2, runFuel tbl fuel [["root"]] sub 0 = some ts2 →
                concatValues ts2 = sub ∧ Tiling 0 ts2 := by
              intro sub ts2 hh
              exact ⟨by simpa using run_concat fuel tbl [["root"]] sub 0 ts2 hh,
                ih [["root"]] sub 0 ts2 hh⟩
            have he := emit_tiling _ text hr ips.2 pos emitted hemit hb
            refine tiling_append he ?_
            have hc := emit_concat _ text (fun sub ts2 hh => (hr sub ts2 hh).1)
              ips.2 pos emitted hemit
            rw [hc, List.length_take, List.length_drop]
            have : min (piecesLen ips.2) (text.length - pos) = piecesLen ips.2 := by
              omega
            rw [this]
            exact ih _ text (pos + piecesLen ips.2) ts hrec
    · rw [if_neg hlt] at h
      simp only [Option.some_inj] at h
      subst h; trivial

lemma emit_success {fuel : Nat} (runner : List Char → Option (List Token))
    (text : List Char)
    (hrun : ∀ sub : List Char, sub.length + 2 ≤ fuel →
      ∃ ts, runner sub = some ts) :
    ∀ (ps : List Piece) (pos : Nat),
      (∀ n, (PieceKind.usingThis, n) ∈ ps → n + 2 ≤ fuel) →
      ∃ toks, emitPieces runner text pos ps = some toks := by
  intro ps
  induction ps with
  | nil => intro pos _; exact ⟨[], rfl⟩
  | cons pn rest ih =>
    intro pos hps
    obtain ⟨pk, n⟩ := pn
    obtain ⟨ts, hts⟩ := ih (pos + n) (fun m hm => hps m (List.mem_cons_of_mem _ hm))
    cases pk with
    | k kind =>
      refine ⟨if n = 0 then ts else ⟨pos, kind, (text.drop pos).take n⟩ :: ts, ?_⟩
      simp only [emitPieces]
      rw [hts]
    | usingThis =>
      have hn : n + 2 ≤ fuel := hps n (List.mem_cons_self _ _)
      have hlen : ((text.drop pos).take n).length + 2 ≤ fuel := by
        have := List.length_take_le n (text.drop pos)
        omega
      obtain ⟨sub, hsub⟩ := hrun _ hlen
      refine ⟨sub.map (fun t => { t with start := t.start + pos }) ++ ts, ?_⟩
      simp only [emitPieces]
      rw [hts, hsub]

lemma run_success {tbl : Table} (hg : GoodTable tbl) :
    ∀ (fuel : Nat) (text : List Char) (stack : List (List String)) (pos : Nat),
      text.length - pos + 2 ≤ fuel →
      ∃ toks, runFuel tbl fuel stack text pos = some toks := by
  intro fuel
  induction fuel with
  | zero => intro text stack pos hf; omega
  | succ fuel ih =>
    intro text stack pos hf
    by_cases hlt : pos < text.length
    · cases hsel : selectIdx ((stack.headD []).flatMap tbl) (prevChar text pos)
          (text.drop pos) with
      | none =>
        obtain ⟨ts, hts⟩ := ih text stack (pos + 1) (by omega)
        refine ⟨⟨pos, .errorK, (text.drop pos).take 1⟩ :: ts, ?_⟩
        simp only [runFuel]
        rw [if_pos hlt, hsel, hts]
        rfl
      | some ips =>
        obtain ⟨i, ps⟩ := ips
        have hmem := selectIdx_rule_mem hsel
        obtain ⟨st, hstmem, hrulemem⟩ := List.mem_flatMap.mp hmem.1
        have hfacts := hg st _ hrulemem _ _ _ hmem.2
        by_cases hz : piecesLen ps = 0
        · have hact := hfacts.1 hz
          obtain ⟨ts, hts⟩ := ih text stack (pos + 1) (by omega)
          refine ⟨⟨pos, .errorK, (text.drop pos).take 1⟩ :: ts, ?_⟩
          simp only [runFuel]
          rw [if_pos hlt, hsel]
          simp only
          rw [if_pos ⟨hz, hact⟩, hts]
          rfl
        · have hdel : ∀ n, (PieceKind.usingThis, n) ∈ ps → n + 2 ≤ fuel := by
            intro n hn
            have := hfacts.2 n hn
            rw [List.length_drop] at this
            omega
          have hrun : ∀ sub : List Char, sub.length + 2 ≤ fuel →
              ∃ ts, runFuel tbl fuel [["root"]] sub 0 = some ts := by
            intro sub hsub
            exact ih sub [["root"]] 0 (by omega)
          obtain ⟨emitted, hemit⟩ := emit_success
            (fun sub => runFuel tbl fuel [["root"]] sub 0) text hrun ps pos hdel
          obtain ⟨ts, hts⟩ := ih text
            (applyAction ((((stack.headD []).flatMap tbl).getD i noRule).action)
              stack) (pos + piecesLen ps) (by omega)
          refine ⟨emitted ++ ts, ?_⟩
          simp only [runFuel]
          rw [if_pos hlt, hsel]
          simp only
          rw [if_neg (by intro hcontra; exact hz hcontra.1), hemit, hts]
          rfl
    · refine ⟨[], ?_⟩
      simp only [runFuel]
      rw [if_neg hlt]

lemma flatMap_nilFun (e : List String) :
    (e.flatMap (fun _ => ([] : List Rule))) = [] := by
  induction e with
  | nil => rfl
  | cons a e ih => simp [ih]

lemma run_nomatch_step (tbl : Table) (fuel : Nat) (stack : List (List String))
    (text : List Char) (pos : Nat) (hlt : pos < text.length)
    (hsel : selectIdx ((stack.headD []).flatMap tbl) (prevChar text pos)
      (text.drop pos) = none) :
    runFuel tbl (fuel + 1) stack text pos =
      (runFuel tbl fuel stack text (pos + 1)).map
        (fun ts => ⟨pos, .errorK, (text.drop pos).take 1⟩ :: ts) := by
  simp only [runFuel]
  rw [if_pos hlt, hsel]

lemma run_match_step (tbl : Table) (fuel : Nat) (stack : List (List String))
    (text : List Char) (pos : Nat) (hlt : pos < text.length) {i : Nat}
    {ps : List Piece}
    (hsel : selectIdx ((stack.headD []).flatMap tbl) (prevChar text pos)
      (text.drop pos) = some (i, ps)) :
    runFuel tbl (fuel + 1) stack text pos =
      if piecesLen ps = 0 ∧
          (((stack.headD []).flatMap tbl).getD i noRule).action = .stay then
        (runFuel tbl fuel stack text (pos + 1)).map
          (fun ts => ⟨pos, .errorK, (text.drop pos).take 1⟩ :: ts)
      else
        match emitPieces (fun sub => runFuel tbl fuel [["root"]] sub 0)
            text pos ps with
        | none => none
        | some emitted =>
          (runFuel tbl fuel
            (applyAction (((stack.headD []).flatMap tbl).getD i noRule).action
              stack) text (pos + piecesLen ps)).map
            (fun ts => emitted ++ ts) := by
  simp only [runFuel]
  rw [if_pos hlt, hsel]

lemma empty_errs : ∀ (fuel : Nat) (text : List Char) (pos : Nat)
    (stack : List (List String)), text.length - pos < fuel →
    runFuel emptyTable fuel stack text pos =
      some ((List.range' pos (text.length - pos)).map
        (fun i => ⟨i, .errorK, (text.drop i).take 1⟩)) := by
  intro fuel
  induction fuel with
  | zero => intro text pos stack hf; omega
  | succ fuel ih =>
    intro text pos stack hf
    by_cases hlt : pos < text.length
    · have hsel : selectIdx ((stack.headD []).flatMap emptyTable)
          (prevChar text pos) (text.drop pos) = none := by
        have : ((stack.headD []).flatMap emptyTable) = [] := flatMap_nilFun _
        rw [this]
        rfl
      rw [run_nomatch_step emptyTable fuel stack text pos hlt hsel,
        ih text (pos + 1) stack (by omega)]
      have hk : text.length - pos = (text.length - (pos + 1)) + 1 := by omega
      rw [hk, List.range'_succ]
      rfl
    · simp only [runFuel]
      rw [if_neg hlt]
      have : text.length - pos = 0 := by omega
      rw [this]
      rfl

lemma contigB_tail {a : Token} {l : List Token}
    (h : contigB (a :: l) = true) : contigB l = true := by
  cases l with
  | nil => rfl
  | cons b ts =>
    simp only [contigB, Bool.and_eq_true] at h
    exact h.2

lemma tiling_contigB : ∀ (l : List Token) (p : Nat), Tiling p l →
    contigB l = true := by
  intro l
  induction l with
  | nil => intro p _; rfl
  | cons a l ih =>
    intro p h
    obtain ⟨hstart, hrest⟩ := h
    cases l with
    | nil => rfl
    | cons b ts =>
      have hb := hrest.1
      simp only [contigB, Bool.and_eq_true, beq_iff_eq]
      exact ⟨by omega, ih (p + a.value.length) hrest⟩

lemma nondecB_link {a b : Token} {ts : List Token}
    (hab : a.start ≤ b.start) (h : nondecB (b :: ts) = true) :
    nondecB (a :: b :: ts) = true := by
  simp only [nondecB, Bool.and_eq_true, decide_eq_true_eq]
  exact ⟨hab, h⟩

lemma nondecB_tail {a : Token} {l : List Token}
    (h : nondecB (a :: l) = true) : nondecB l = true := by
  cases l with
  | nil => rfl
  | cons b ts =>
    simp only [nondecB, Bool.and_eq_true] at h
    exact h.2

lemma nondecB_append : ∀ (xs ys : List Token), nondecB xs = true →
    nondecB ys = true →
    (∀ a b, xs.getLast? = some a → ys.head? = some b → a.start ≤ b.start) →
    nondecB (xs ++ ys) = true := by
  intro xs
  induction xs with
  | nil => intro ys _ hy _; simpa using hy
  | cons a xs ih =>
    intro ys hx hy hlink
    cases xs with
    | nil =>
      cases ys with
      | nil => rfl
      | cons b ts =>
        exact nondecB_link (hlink a b rfl rfl) hy
    | cons x xs' =>
      have hx' : nondecB (x :: xs') = true := nondecB_tail hx
      have hrec : nondecB ((x :: xs') ++ ys) = true := by
        refine ih ys hx' hy ?_
        intro a' b' hl hh
        refine hlink a' b' ?_ hh
        rw [List.getLast?_cons_cons]
        exact hl
      have hax : a.start ≤ x.start := by
        simp only [nondecB, Bool.and_eq_true, decide_eq_true_eq] at hx
        exact hx.1
      exact nondecB_link hax hrec

lemma ajPiece_starts {t : Token} : ∀ u ∈ ajPiece t, u.start = t.start := by
  intro u hu
  unfold ajPiece at hu
  split_ifs at hu <;> simp only [List.mem_singleton, List.mem_cons,
    List.mem_singleton, List.not_mem_nil, or_false] at hu <;>
    first
    | (subst hu; rfl)
    | (rcases hu with hu | hu <;> (subst hu; rfl))

lemma ajPiece_head_start (t : Token) :
    (ajPiece t).head?.map Token.start = some t.start := by
  unfold ajPiece
  split_ifs <;> rfl

lemma ajPiece_last_start {t : Token} : ∀ a, (ajPiece t).getLast? = some a →
    a.start = t.start := by
  intro a ha
  unfold ajPiece at ha
  split_ifs at ha <;> simp only [List.getLast?_singleton,
    List.getLast?_cons_cons, Option.some_inj] at ha <;>
    (rw [← ha])

lemma ajPiece_nondec (t : Token) : nondecB (ajPiece t) = true := by
  unfold ajPiece
  split_ifs <;> simp [nondecB]

lemma ajRewrite_head_start : ∀ (l : List Token),
    (ajRewrite l).head?.map Token.start = l.head?.map Token.start := by
  intro l
  cases l with
  | nil => rfl
  | cons t ts =>
    simp only [ajRewrite]
    rw [List.head?_append_of_ne_nil]
    · rw [ajPiece_head_start]
      rfl
    · intro hnil
      have := ajPiece_head_start t
      rw [hnil] at this
      simp at this

lemma ajRewrite_nondec : ∀ (l : List Token), contigB l = true →
    nondecB (ajRewrite l) = true := by
  intro l
  induction l with
  | nil => intro _; rfl
  | cons t ts ih =>
    intro h
    have h2 := ih (contigB_tail h)
    simp only [ajRewrite]
    refine nondecB_append _ _ (ajPiece_nondec t) h2 ?_
    intro a b hl hh
    have ha := ajPiece_last_start a hl
    have hb : (ajRewrite ts).head?.map Token.start = some b.start := by
      rw [hh]; rfl
    rw [ajRewrite_head_start ts] at hb
    cases ts with
    | nil => simp at hb
    | cons r ts' =>
      simp only [List.head?_cons, Option.map_some', Option.some_inj] at hb
      have hr : r.start = t.start + t.value.length := by
        simp only [contigB, Bool.and_eq_true, beq_iff_eq] at h
        exact h.1
      omega

lemma ajRewrite_flatMap : ∀ (l : List Token),
    ajRewrite l = l.flatMap ajSpecCase := by
  intro l
  induction l with
  | nil => rfl
  | cons t ts ih =>
    simp only [ajRewrite, List.flatMap_cons, ih]
    congr 1
    by_cases h1 : t.kind = .nameK ∧ t.value ∈ aj_keywords
    · simp [ajPiece, ajSpecCase, h1]
    · by_cases h2 : t.kind = .nameLabel ∧ t.value ∈ aj_inter_type
      · have h3 : ¬(t.kind = .nameDecorator ∧
            t.value ∈ aj_inter_type_annotation) := by
          intro hc
          obtain ⟨hk, _⟩ := hc
          rw [h2.1] at hk
          simp at hk
        simp [ajPiece, ajSpecCase, h1, h2, h3]
      · by_cases h3 : t.kind = .nameDecorator ∧
            t.value ∈ aj_inter_type_annotation
        · simp [ajPiece, ajSpecCase, h1, h2, h3]
        · simp [ajPiece, ajSpecCase, h1, h2, h3]

lemma concatValues_ajRewrite : ∀ (l : List Token),
    concatValues (ajRewrite l) = concatValues l := by
  intro l
  induction l with
  | nil => rfl
  | cons t ts ih =>
    simp only [ajRewrite, concatValues_append, ih]
    congr 1
    unfold ajPiece
    split_ifs <;> simp only [concatValues, List.map_cons, List.map_nil,
      List.flatten_cons, List.flatten_nil, List.append_nil]
    rw [List.dropLast_eq_take]
    exact List.take_append_drop _ _

lemma action_ok_of_mem {p : StackAction → Bool} {rules : List Rule}
    (h : (rules.map (·.action)).all p = true) {r : Rule} (hr : r ∈ rules) :
    p r.action = true :=
  List.all_eq_true.mp h _ (List.mem_map_of_mem _ hr)

lemma groovy_pop_one : ∀ (st : String) (r : Rule), r ∈ groovyTable st →
    ∀ n, r.action = .pop n → n = 1 := by
  intro st r hr n ha
  have hp : ∀ (rules : List Rule),
      (rules.map (·.action)).all (fun a =>
        match a with
        | .pop m => m == 1
        | _ => true) = true → r ∈ rules → n = 1 := by
    intro rules hall hmem
    have := action_ok_of_mem hall hmem
    rw [ha] at this
    simpa using this
  by_cases h1 : st = "root"
  · rw [groovyTable, if_pos h1] at hr; exact hp groovyRootRules rfl hr
  · rw [groovyTable, if_neg h1] at hr
    by_cases h2 : st = "base"
    · rw [if_pos h2] at hr; exact hp groovyBaseRules rfl hr
    · rw [if_neg h2] at hr
      by_cases h3 : st = "class"
      · rw [if_pos h3] at hr; exact hp groovyClassRules rfl hr
      · rw [if_neg h3] at hr
        by_cases h4 : st = "import"
        · rw [if_pos h4] at hr; exact hp groovyImportRules rfl hr
        · rw [if_neg h4] at hr; simp at hr

lemma groovy_no_goto_combined : ∀ (st : String) (r : Rule),
    r ∈ groovyTable st →
    (∀ s', r.action ≠ .goto s') ∧ (∀ l, r.action ≠ .pushCombined l) := by
  intro st r hr
  have hp : ∀ (rules : List Rule),
      (rules.map (·.action)).all (fun a =>
        match a with
        | .goto _ => false
        | .pushCombined _ => false
        | _ => true) = true → r ∈ rules →
      (∀ s', r.action ≠ .goto s') ∧ (∀ l, r.action ≠ .pushCombined l) := by
    intro rules hall hmem
    have hok := action_ok_of_mem hall hmem
    constructor
    · intro s' hc; rw [hc] at hok; simp at hok
    · intro l hc; rw [hc] at hok; simp at hok
  by_cases h1 : st = "root"
  · rw [groovyTable, if_pos h1] at hr; exact hp groovyRootRules rfl hr
  · rw [groovyTable, if_neg h1] at hr
    by_cases h2 : st = "base"
    · rw [if_pos h2] at hr; exact hp groovyBaseRules rfl hr
    · rw [if_neg h2] at hr
      by_cases h3 : st = "class"
      · rw [if_pos h3] at hr; exact hp groovyClassRules rfl hr
      · rw [if_neg h3] at hr
        by_cases h4 : st = "import"
        · rw [if_pos h4] at hr; exact hp groovyImportRules rfl hr
        · rw [if_neg h4] at hr; simp at hr

lemma groovy_base_no_pop : ∀ (r : Rule), r ∈ groovyTable "base" →
    ∀ n, r.action ≠ .pop n := by
  intro r hr n hc
  have hbase : groovyTable "base" = groovyBaseRules := rfl
  rw [hbase] at hr
  have hall : (groovyBaseRules.map (·.action)).all (fun a =>
      match a with
      | .pop _ => false
      | _ => true) = true := rfl
  have := action_ok_of_mem hall hr
  rw [hc] at this
  simp at this

lemma groovy_bisim : ∀ (fuel : Nat) (text : List Char) (pos : Nat)
    (s2 : List (List String)), s2 ≠ [] → s2.getLast? = some ["base"] →
    runFuel groovyTable fuel (s2 ++ [["root"]]) text pos =
      runFuel groovyTable fuel s2 text pos := by
  intro fuel
  induction fuel with
  | zero => intro text pos s2 _ _; rfl
  | succ fuel ih =>
    intro text pos s2 hne hlast
    obtain ⟨e, rest, rfl⟩ : ∃ e rest, s2 = e :: rest := by
      cases s2 with
      | nil => exact absurd rfl hne
      | cons e rest => exact ⟨e, rest, rfl⟩
    by_cases hlt : pos < text.length
    · cases hsel : selectIdx (((e :: rest).headD []).flatMap groovyTable)
          (prevChar text pos) (text.drop pos) with
      | none =>
        have hsel1 : selectIdx ((((e :: rest) ++ [["root"]]).headD
            []).flatMap groovyTable) (prevChar text pos) (text.drop pos) =
            none := hsel
        rw [run_nomatch_step groovyTable fuel ((e :: rest) ++ [["root"]]) text
            pos hlt hsel1,
          run_nomatch_step groovyTable fuel (e :: rest) text pos hlt hsel,
          ih text (pos + 1) (e :: rest) hne hlast]
      | some ips =>
        obtain ⟨i, ps⟩ := ips
        have hsel1 : selectIdx ((((e :: rest) ++ [["root"]]).headD
            []).flatMap groovyTable) (prevChar text pos) (text.drop pos) =
            some (i, ps) := hsel
        rw [run_match_step groovyTable fuel ((e :: rest) ++ [["root"]]) text
            pos hlt hsel1,
          run_match_step groovyTable fuel (e :: rest) text pos hlt hsel]
        rw [show (((e :: rest) ++ [["root"]]).headD []) =
          ((e :: rest).headD []) from rfl]
        have hmem := selectIdx_rule_mem hsel
        set r0 := (((e :: rest).headD []).flatMap groovyTable).getD i noRule
          with hr0
        by_cases hz : piecesLen ps = 0 ∧ r0.action = .stay
        · rw [if_pos hz, if_pos hz, ih text (pos + 1) (e :: rest) hne hlast]
        · rw [if_neg hz, if_neg hz]
          cases hemit : emitPieces
              (fun sub => runFuel groovyTable fuel [["root"]] sub 0)
              text pos ps with
          | none => rfl
          | some emitted =>
            obtain ⟨st, hstmem, hrulemem⟩ := List.mem_flatMap.mp hmem.1
            have hstack : applyAction r0.action ((e :: rest) ++ [["root"]]) =
                applyAction r0.action (e :: rest) ++ [["root"]] ∧
                applyAction r0.action (e :: rest) ≠ [] ∧
                (applyAction r0.action (e :: rest)).getLast? = some ["base"] := by
              cases ha : r0.action with
              | stay => exact ⟨rfl, hne, hlast⟩
              | push x =>
                refine ⟨rfl, by simp [applyAction], ?_⟩
                show ([x] :: e :: rest).getLast? = some ["base"]
                rw [List.getLast?_cons_cons]
                exact hlast
              | goto s' =>
                exact absurd ha ((groovy_no_goto_combined st _ hrulemem).1 s')
              | pushCombined l =>
                exact absurd ha ((groovy_no_goto_combined st _ hrulemem).2 l)
              | pop n =>
                have hn1 : n = 1 := groovy_pop_one st _ hrulemem n ha
                subst hn1
                cases rest with
                | nil =>
                  have he : e = ["base"] := by
                    simpa using hlast
                  have hst : st = "base" := by
                    rw [he] at hstmem
                    simpa using hstmem
                  rw [hst] at hrulemem
                  exact absurd ha (groovy_base_no_pop _ hrulemem 1)
                | cons r2 rest' =>
                  refine ⟨?_, ?_, ?_⟩
                  · show popUpTo 1 ((e :: r2 :: rest') ++ [["root"]]) =
                      popUpTo 1 (e :: r2 :: rest') ++ [["root"]]
                    simp [popUpTo]
                  · show popUpTo 1 (e :: r2 :: rest') ≠ []
                    simp [popUpTo]
                  · show (popUpTo 1 (e :: r2 :: rest')).getLast? = some ["base"]
                    simp only [popUpTo, List.length_cons]
                    have hmin : min 1 (rest'.length + 1 + 1 - 1) = 1 := by omega
                    rw [hmin]
                    simp only [List.drop_one, List.tail_cons]
                    rw [← List.getLast?_cons_cons (a := e)]
                    exact hlast
            rw [hstack.1,
              ih text (pos + piecesLen ps) _ hstack.2.1 hstack.2.2]
    · have h1 : runFuel groovyTable (fuel + 1) ((e :: rest) ++ [["root"]])
          text pos = some [] := by
        simp only [runFuel]
        rw [if_neg hlt]
      have h2 : runFuel groovyTable (fuel + 1) (e :: rest) text pos =
          some [] := by
        simp only [runFuel]
        rw [if_neg hlt]
      rw [h1, h2]

lemma shebang_none {text : List Char}
    (h : starts ("#!".toList) text = false) : groovyShebangM text = none := by
  have h2 : starts ['#', '!'] text = false := h
  simp [groovyShebangM, h2]

lemma groovy_first_step (fuel : Nat) (text : List Char)
    (h : starts ("#!".toList) text = false) (hlt : 0 < text.length) :
    runFuel groovyTable (fuel + 1) [["root"]] text 0 =
      runFuel groovyTable fuel [["base"], ["root"]] text 0 := by
  have hsel : selectIdx ((([["root"]] : List (List String)).headD
      []).flatMap groovyTable) (prevChar text 0) (text.drop 0) =
      some (1, []) := by
    simp [selectIdx, simpleRule, shebang_none h, groovyTable, groovyRootRules]
  rw [run_match_step groovyTable fuel [["root"]] text 0 hlt hsel]
  have hact : ((((([["root"]] : List (List String))).headD
      []).flatMap groovyTable).getD 1 noRule).action = .push "base" := rfl
  have hcond : ¬(piecesLen ([] : List Piece) = 0 ∧
      ((((([["root"]] : List (List String))).headD
        []).flatMap groovyTable).getD 1 noRule).action = .stay) := by
    rw [hact]
    rintro ⟨-, hc⟩
    cases hc
  rw [if_neg hcond]
  rw [show emitPieces (fun sub => runFuel groovyTable fuel [["root"]] sub 0)
    text 0 ([] : List Piece) = some [] from rfl]
  rw [hact]
  rw [show applyAction (.push "base") [["root"]] = [["base"], ["root"]] from rfl]
  simp [piecesLen]

lemma oneCharTable_good : GoodTable oneCharTable := by
  intro st r hr pv s ps hm
  unfold oneCharTable at hr
  split_ifs at hr
  · simp only [List.mem_singleton] at hr
    subst hr
    cases s with
    | nil => simp at hm
    | cons c cs =>
      simp only [Option.some_inj] at hm
      constructor
      · intro _
        rfl
      · intro n hn
        rw [← hm] at hn
        simp at hn
  · simp at hr

lemma oneCharTable_totalLe : TotalLe oneCharTable := by
  intro st r hr pv s ps hm
  unfold oneCharTable at hr
  split_ifs at hr
  · simp only [List.mem_singleton] at hr
    subst hr
    cases s with
    | nil => simp at hm
    | cons c cs =>
      simp only [Option.some_inj] at hm
      rw [← hm]
      simp [piecesLen]
  · simp at hr

lemma loop_none : ∀ (fuel : Nat) (s : List (List String)),
    runFuel loopTable fuel (["root"] :: s) ['a'] 0 = none := by
  intro fuel
  induction fuel with
  | zero => intro s; rfl
  | succ fuel ih =>
    intro s
    have hsel : selectIdx (((["root"] :: s).headD []).flatMap loopTable)
        (prevChar ['a'] 0) (['a'].drop 0) = some (0, []) := rfl
    rw [run_match_step loopTable fuel (["root"] :: s) ['a'] 0 (by decide) hsel]
    have hact : ((((["root"] :: s).headD []).flatMap loopTable).getD 0
        noRule).action = .push "root" := rfl
    have hcond : ¬(piecesLen ([] : List Piece) = 0 ∧
        ((((["root"] :: s).headD []).flatMap loopTable).getD 0
          noRule).action = .stay) := by
      rw [hact]
      rintro ⟨-, hc⟩
      cases hc
    rw [if_neg hcond]
    rw [show emitPieces (fun sub => runFuel loopTable fuel [["root"]] sub 0)
      ['a'] 0 ([] : List Piece) = some [] from rfl]
    rw [hact]
    rw [show applyAction (.push "root") (["root"] :: s) =
      ["root"] :: ["root"] :: s from rfl]
    rw [show (0 + piecesLen ([] : List Piece)) = 0 from rfl]
    rw [ih (["root"] :: s)]
    rfl

/-! ### Claims -/

/-- C1: for every finite input text and every rule table, the token sequence
produced by a run satisfies the reconstruction invariant: concatenating the
literal text of all emitted tokens in emission order yields exactly the
original input text; and the AspectJLexer rewriting of JavaLexer tokens
preserves this concatenation. -/
theorem c1_reconstruction :
    (∀ (tbl : Table) (fuel : Nat) (stack : List (List String))
      (text : List Char) (toks : List Token),
      runFuel tbl fuel stack text 0 = some toks →
      concatValues toks = text) ∧
    (∀ ts : List Token, concatValues (ajRewrite ts) = concatValues ts) := by
  constructor
  · intro tbl fuel stack text toks h
    simpa using run_concat fuel tbl stack text 0 toks h
  · exact concatValues_ajRewrite

theorem c1_witness :
    concatValues [⟨0, Kind.nameLabel, "parents:".toList⟩] =
      "parents:".toList :=
  c1_reconstruction.1 javaTable 2 [["root"]] ("parents:".toList)
    [⟨0, Kind.nameLabel, "parents:".toList⟩] (by decide)

/-- C2 as stated fails on the modelled engine: the valid table whose root
state holds a single default-style rule (zero-length match with a push
action) loops forever with the cursor stuck at offset zero, because a
zero-length match that carries a stack action is exempt from the forced
single-character advance (spec section 4.3 steps 5 and 6). -/
theorem c2_counterexample :
    ¬ ∃ toks, Produces loopTable [["root"]] ['a'] toks := by
  rintro ⟨toks, fuel, h⟩
  rw [loop_none fuel []] at h
  cases h

/-- C2 amended: for all finite input text and any valid rule table none of
whose rules can match a zero-length span while carrying a stack action, and
whose delegate pieces are strictly shorter than the suffix they matched at,
the run terminates within text length plus two iterations and produces at
least one token when the text is non-empty (every iteration advances the
cursor by at least one character, through a match or the forced advance). -/
theorem c2_terminates_amended :
    ∀ (tbl : Table) (stack : List (List String)) (text : List Char),
      GoodTable tbl →
      ∃ toks, runFuel tbl (text.length + 2) stack text 0 = some toks ∧
        (text ≠ [] → toks ≠ []) := by
  intro tbl stack text hg
  obtain ⟨toks, h⟩ := run_success hg (text.length + 2) text stack 0 (by omega)
  refine ⟨toks, h, ?_⟩
  intro hne hnil
  subst hnil
  have hc := run_concat _ tbl stack text 0 [] h
  simp [concatValues] at hc
  exact hne hc

theorem c2_witness :
    ∃ toks, runFuel oneCharTable ((['a', 'b'] : List Char).length + 2)
      [["root"]] ['a', 'b'] 0 = some toks ∧
      ((['a', 'b'] : List Char) ≠ [] → toks ≠ []) :=
  c2_terminates_amended oneCharTable [["root"]] ['a', 'b'] oneCharTable_good

/-- C3: within one state, rules are tried strictly in declaration order and
the first rule whose pattern matches anchored at the cursor wins: the
selected index points at a firing rule and every earlier rule fails to match.
Concretely, for the root state of JavaLexer on text starting with the words
throw new XYZ and an opening parenthesis, both the keyword rule (index 3) and
the later method-name rule (index 4) match at offset zero, and the earlier
keyword rule is the one applied, so the run emits the keyword token first. -/
theorem c3_first_match_wins :
    (∀ (rules : List Rule) (pv : Option Char) (s : List Char) (i : Nat)
      (ps : List Piece), selectIdx rules pv s = some (i, ps) →
      (∃ r, rules[i]? = some r ∧ r.matcher pv s = some ps) ∧
      ∀ j, j < i → ∀ r', rules[j]? = some r' → r'.matcher pv s = none) ∧
    selectIdx javaRootRules none ("throw new XYZ(".toList) =
      some (3, [(.k .keyword, 5)]) ∧
    (javaRootRules.getD 4 noRule).matcher none ("throw new XYZ(".toList) =
      some [(.usingThis, 10), (.k .nameFunction, 3), (.k .text, 0),
        (.k .punctuation, 1)] ∧
    runFuel javaTable 8 [["root"]] ("throw new XYZ(".toList) 0 =
      some [⟨0, .keyword, "throw".toList⟩, ⟨5, .text, [' ']⟩,
        ⟨6, .keyword, "new".toList⟩, ⟨9, .text, [' ']⟩,
        ⟨10, .nameK, "XYZ".toList⟩, ⟨13, .punctuation, ['(']⟩] :=
  ⟨selectIdx_spec, by decide, by decide, by decide⟩

theorem c3_witness :
    (javaRootRules.getD 0 noRule).matcher none ("throw new XYZ(".toList) =
      none :=
  (c3_first_match_wins.1 javaRootRules none ("throw new XYZ(".toList) 3
    [(.k .keyword, 5)] (by decide)).2 0 (by omega)
    (javaRootRules.getD 0 noRule) rfl

/-- C4 as stated fails on the code: on the input text parents-colon,
AspectJLexer splits the Name.Label token into a Keyword token and an Operator
token both carrying start offset 0, so the second token starts before the end
of the first and the claimed inequality is violated. -/
theorem c4_counterexample :
    aspectjGetTokens 2 ("parents:".toList) =
      some [⟨0, .keyword, "parents".toList⟩, ⟨0, .operator, [':']⟩] ∧
    monotoneB [⟨0, .keyword, "parents".toList⟩, ⟨0, .operator, [':']⟩] =
      false :=
  ⟨by decide, by decide⟩

/-- C4 amended: for every run of the engine (over any table whose matchers
never claim more characters than the suffix holds), consecutive tokens are
exactly contiguous: token i plus one starts at token i start plus the length
of token i text; the AspectJ rewriting preserves non-decreasing start
offsets, but its Name.Label split emits two tokens at the same start offset,
so the claimed strict advancement does not survive the rewriting. -/
theorem c4_offset_monotonicity_amended :
    (∀ (tbl : Table), TotalLe tbl →
      ∀ (fuel : Nat) (stack : List (List String)) (text : List Char)
        (toks : List Token), runFuel tbl fuel stack text 0 = some toks →
        contigB toks = true) ∧
    (∀ l : List Token, contigB l = true → nondecB (ajRewrite l) = true) := by
  constructor
  · intro tbl ht fuel stack text toks h
    exact tiling_contigB toks 0 (run_tiling ht fuel stack text 0 toks h)
  · exact ajRewrite_nondec

theorem c4_witness :
    contigB [⟨0, Kind.text, ['a']⟩, ⟨1, Kind.text, ['b']⟩] = true ∧
    nondecB (ajRewrite [⟨0, Kind.text, ['a']⟩, ⟨1, Kind.text, ['b']⟩]) =
      true :=
  ⟨c4_offset_monotonicity_amended.1 oneCharTable oneCharTable_totalLe 4
      [["root"]] ['a', 'b'] [⟨0, Kind.text, ['a']⟩, ⟨1, Kind.text, ['b']⟩]
      (by decide),
    c4_offset_monotonicity_amended.2 [⟨0, Kind.text, ['a']⟩,
      ⟨1, Kind.text, ['b']⟩] (by decide)⟩

/-- C5: whenever no rule of the current state matches at the cursor, the
engine consumes exactly one character, emits it as one token of the fallback
error kind, advances the cursor by exactly one and leaves the stack
unchanged, continuing the run (no error visible to the caller); in
particular, a table with no rules at all still produces the complete token
stream covering every character of any input. -/
theorem c5_fallback_no_match :
    (∀ (tbl : Table) (fuel : Nat) (stack : List (List String))
      (text : List Char) (pos : Nat), pos < text.length →
      selectIdx ((stack.headD []).flatMap tbl) (prevChar text pos)
        (text.drop pos) = none →
      runFuel tbl (fuel + 1) stack text pos =
        (runFuel tbl fuel stack text (pos + 1)).map
          (fun ts => ⟨pos, .errorK, (text.drop pos).take 1⟩ :: ts)) ∧
    (∀ (text : List Char) (stack : List (List String)) (fuel : Nat),
      text.length < fuel →
      runFuel emptyTable fuel stack text 0 = some (errTokens text)) := by
  constructor
  · intro tbl fuel stack text pos h1 h2
    exact run_nomatch_step tbl fuel stack text pos h1 h2
  · intro text stack fuel hf
    have h := empty_errs fuel text 0 stack (by omega)
    rw [h]
    simp [errTokens, List.range_eq_range']

theorem c5_witness :
    runFuel emptyTable 2 [["root"]] ['a'] 0 =
      (runFuel emptyTable 1 [["root"]] ['a'] 1).map
        (fun ts => ⟨0, .errorK, ((['a'] : List Char).drop 0).take 1⟩ :: ts) ∧
    runFuel emptyTable 2 [["root"]] ['a'] 0 = some (errTokens ['a']) :=
  ⟨c5_fallback_no_match.1 emptyTable 1 [["root"]] ['a'] 0 (by decide) rfl,
    c5_fallback_no_match.2 ['a'] [["root"]] 2 (by decide)⟩

/-- C6: the state stack is never emptied: pop removes up to n entries but
never the last remaining one, and a table whose root state pops
unconditionally neither crashes nor empties the stack; lexing continues in
root, as the run over the unconditional-pop table shows (the second character
is still tokenized by the root rule). -/
theorem c6_pop_floor :
    (∀ (n : Nat) (s : List (List String)), s ≠ [] → popUpTo n s ≠ []) ∧
    runFuel popDemoTable 3 [["root"]] ['a', 'b'] 0 =
      some [⟨0, .text, ['a']⟩, ⟨1, .text, ['b']⟩] := by
  constructor
  · intro n s hs
    intro hc
    have hlen : (popUpTo n s).length = s.length - min n (s.length - 1) := by
      simp [popUpTo]
    rw [hc] at hlen
    simp at hlen
    have hpos : 0 < s.length := List.length_pos.mpr hs
    have hmin : min n (s.length - 1) ≤ s.length - 1 := Nat.min_le_right _ _
    omega
  · decide

theorem c6_witness : popUpTo 5 [["root"]] ≠ [] :=
  c6_pop_floor.1 5 [["root"]] (by decide)

/-- C7: includes are resolved by splice at table-build time: an include
directive at the head of a state definition resolves to the included state's
resolved rules followed by the rest, so a state built via include behaves
identically to the manual in-place concatenation (runs only depend on the
resolved table, pointwise); concretely, the root state of ScalaLexer, a list
of twenty-two includes, resolves to exactly the concatenation of the resolved
rules of the included states in order. -/
theorem c7_include_flattening :
    (∀ {α : Type} (defs : String → List (Entry α)) (fuel : Nat) (b : String)
      (rest : List (Entry α)),
      resolveE defs (fuel + 1) (.inc b :: rest) =
        resolveState defs fuel b ++ resolveE defs (fuel + 1) rest) ∧
    (∀ (tbl1 tbl2 : Table), (∀ st, tbl1 st = tbl2 st) →
      ∀ (fuel : Nat) (stack : List (List String)) (text : List Char)
        (pos : Nat),
        runFuel tbl1 fuel stack text pos = runFuel tbl2 fuel stack text pos) ∧
    resolveState scalaDefs 2 "root" =
      resolveState scalaDefs 1 "whitespace" ++
      resolveState scalaDefs 1 "comments" ++
      resolveState scalaDefs 1 "script-header" ++
      resolveState scalaDefs 1 "imports" ++
      resolveState scalaDefs 1 "exports" ++
      resolveState scalaDefs 1 "storage-modifiers" ++
      resolveState scalaDefs 1 "annotations" ++
      resolveState scalaDefs 1 "using" ++
      resolveState scalaDefs 1 "declarations" ++
      resolveState scalaDefs 1 "inheritance" ++
      resolveState scalaDefs 1 "extension" ++
      resolveState scalaDefs 1 "end" ++
      resolveState scalaDefs 1 "constants" ++
      resolveState scalaDefs 1 "strings" ++
      resolveState scalaDefs 1 "symbols" ++
      resolveState scalaDefs 1 "singleton-type" ++
      resolveState scalaDefs 1 "inline" ++
      resolveState scalaDefs 1 "quoted" ++
      resolveState scalaDefs 1 "keywords" ++
      resolveState scalaDefs 1 "operators" ++
      resolveState scalaDefs 1 "punctuation" ++
      resolveState scalaDefs 1 "names" := by
  refine ⟨?_, ?_, ?_⟩
  · intro α defs fuel b rest
    simp [resolveE, resolveState]
  · intro tbl1 tbl2 h fuel stack text pos
    have he : tbl1 = tbl2 := funext h
    rw [he]
  · set_option maxRecDepth 10000 in decide

theorem c7_witness :
    runFuel javaTable 1 [["root"]] ['a'] 0 =
      runFuel javaTable 1 [["root"]] ['a'] 0 :=
  c7_include_flattening.2.1 javaTable javaTable (fun _ => rfl) 1 [["root"]]
    ['a'] 0

/-- C8: a default rule carries no pattern, always matches a zero-length span
and only triggers its stack action when no earlier rule matched (it is the
last rule of the state); consequently, for every input text that does not
begin with a shebang, running GroovyLexer from the root state (shebang rule
followed by a default rule entering base) produces exactly the same token
sequence as running the same table starting directly in the base state. -/
theorem c8_groovy_default_equivalence :
    (∀ (pv : Option Char) (s : List Char),
      (groovyRootRules.getD 1 noRule).matcher pv s = some [] ∧
      (groovyRootRules.getD 1 noRule).action = .push "base") ∧
    (∀ (text : List Char) (toks : List Token),
      starts ("#!".toList) text = false →
      (Produces groovyTable [["root"]] text toks ↔
        Produces groovyTable [["base"]] text toks)) := by
  constructor
  · intro pv s
    exact ⟨rfl, rfl⟩
  · intro text toks h
    have hbisim : ∀ fuel,
        runFuel groovyTable fuel [["base"], ["root"]] text 0 =
          runFuel groovyTable fuel [["base"]] text 0 := by
      intro fuel
      exact groovy_bisim fuel text 0 [["base"]] (by simp) (by simp)
    constructor
    · rintro ⟨fuel, hrun⟩
      cases fuel with
      | zero => exact absurd hrun (by simp [runFuel])
      | succ f =>
        by_cases hlen : 0 < text.length
        · rw [groovy_first_step f text h hlen, hbisim f] at hrun
          exact ⟨f, hrun⟩
        · have htext : text = [] := by
            cases text with
            | nil => rfl
            | cons c cs => simp at hlen
          subst htext
          have h0 : runFuel groovyTable (f + 1) [["root"]]
              ([] : List Char) 0 = some [] := by
            simp only [runFuel]
            rw [if_neg (by simp)]
          rw [h0] at hrun
          obtain rfl : ([] : List Token) = toks := Option.some_inj.mp hrun
          refine ⟨1, ?_⟩
          simp only [runFuel]
          rw [if_neg (by simp)]
    · rintro ⟨fuel, hrun⟩
      by_cases hlen : 0 < text.length
      · refine ⟨fuel + 1, ?_⟩
        rw [groovy_first_step fuel text h hlen, hbisim fuel]
        exact hrun
      · have htext : text = [] := by
          cases text with
          | nil => rfl
          | cons c cs => simp at hlen
        subst htext
        cases fuel with
        | zero => exact absurd hrun (by simp [runFuel])
        | succ f =>
          have h0 : runFuel groovyTable (f + 1) [["base"]]
              ([] : List Char) 0 = some [] := by
            simp only [runFuel]
            rw [if_neg (by simp)]
          rw [h0] at hrun
          obtain rfl : ([] : List Token) = toks := Option.some_inj.mp hrun
          refine ⟨1, ?_⟩
          simp only [runFuel]
          rw [if_neg (by simp)]

theorem c8_witness :
    Produces groovyTable [["root"]] ['x'] [⟨0, Kind.nameK, ['x']⟩] ↔
      Produces groovyTable [["base"]] ['x'] [⟨0, Kind.nameK, ['x']⟩] :=
  (c8_groovy_default_equivalence.2 ['x'] [⟨0, Kind.nameK, ['x']⟩] (by decide))

/-- C9: for every input text, AspectJLexer yields exactly the JavaLexer
tokens rewritten token by token: a Name whose value is an AspectJ keyword is
re-emitted as Keyword; a Name.Decorator whose value is an inter-type
annotation is re-emitted as Keyword; a Name.Label whose value is an
inter-type declaration is replaced by two tokens at that token's start
offset, a Keyword holding the value minus its final character then an
Operator holding the final character; all other tokens pass through
unchanged. -/
theorem c9_aspectj_stream :
    ∀ (fuel : Nat) (text : List Char) (toks : List Token),
      javaGetTokens fuel text = some toks →
      aspectjGetTokens fuel text = some (toks.flatMap ajSpecCase) := by
  intro fuel text toks h
  unfold aspectjGetTokens
  rw [h]
  simp only [Option.map_some']
  rw [ajRewrite_flatMap]

theorem c9_witness :
    aspectjGetTokens 2 ("parents:".toList) =
      some ([⟨0, Kind.nameLabel, "parents:".toList⟩].flatMap ajSpecCase) :=
  c9_aspectj_stream 2 ("parents:".toList)
    [⟨0, Kind.nameLabel, "parents:".toList⟩] (by decide)

/-- C10: GosuTemplateLexer yields exactly the token sequence of a fresh
GosuLexer run on the same text with initial state stack templateText, for
every input and fuel; and the templateText state lexes a plain character as
a String token. -/
theorem c10_gosu_template :
    (∀ (fuel : Nat) (text : List Char),
      gosuTemplateGetTokens fuel text =
        runFuel gosuTable fuel [["templateText"]] text 0) ∧
    runFuel gosuTable 3 [["templateText"]] ['a'] 0 =
      some [⟨0, .stringK, ['a']⟩] :=
  ⟨fun _ _ => rfl, by decide⟩

end PygJvm
